import Mathlib

/-!
# Verification of `my_simulator.py` (QuantumSimulatorProject)

A shallow embedding of the sparse-amplitude quantum register simulator.

The Python program stores amplitudes as double-precision complex numbers.
We idealize the numerics to exact arithmetic over the field ℚ(√2, i):
every constant appearing in the program (the Hadamard entries `1/√2`, the
Pauli-X entries `0`/`1`, the thresholds `1e-9` / `1e-6`) lies in this field,
and all comparisons the program makes are decidable there.

* `Q2` is ℚ(√2): values `a + b·√2` with `a b : ℚ`.
* `KC` is the complex field over `Q2` (so ℚ(√2, i)).
* A register (`Reg`) is an association list mirroring a Python `dict`
  (insertion order preserved; assignment to an existing key keeps its
  position, assignment to a fresh key appends).
-/

/-- ℚ(√2): the value `a + b·√2`. -/
@[ext] structure Q2 where
  a : ℚ
  b : ℚ
deriving DecidableEq

namespace Q2

instance : Zero Q2 := ⟨⟨0, 0⟩⟩
instance : One Q2 := ⟨⟨1, 0⟩⟩
instance : Add Q2 := ⟨fun x y => ⟨x.a + y.a, x.b + y.b⟩⟩
instance : Neg Q2 := ⟨fun x => ⟨-x.a, -x.b⟩⟩
instance : Mul Q2 := ⟨fun x y => ⟨x.a * y.a + 2 * (x.b * y.b), x.a * y.b + x.b * y.a⟩⟩

def ofRat (q : ℚ) : Q2 := ⟨q, 0⟩

@[simp] theorem add_a (x y : Q2) : (x + y).a = x.a + y.a := rfl
@[simp] theorem add_b (x y : Q2) : (x + y).b = x.b + y.b := rfl
@[simp] theorem mul_a (x y : Q2) : (x * y).a = x.a * y.a + 2 * (x.b * y.b) := rfl
@[simp] theorem mul_b (x y : Q2) : (x * y).b = x.a * y.b + x.b * y.a := rfl
@[simp] theorem neg_a (x : Q2) : (-x).a = -x.a := rfl
@[simp] theorem neg_b (x : Q2) : (-x).b = -x.b := rfl
@[simp] theorem zero_a : (0 : Q2).a = 0 := rfl
@[simp] theorem zero_b : (0 : Q2).b = 0 := rfl
@[simp] theorem one_a : (1 : Q2).a = 1 := rfl
@[simp] theorem one_b : (1 : Q2).b = 0 := rfl

instance : CommRing Q2 where
  add := (· + ·)
  add_assoc a b c := by apply Q2.ext <;> simp <;> ring
  zero := 0
  zero_add a := by apply Q2.ext <;> simp
  add_zero a := by apply Q2.ext <;> simp
  add_comm a b := by apply Q2.ext <;> simp <;> ring
  neg := Neg.neg
  neg_add_cancel a := by apply Q2.ext <;> simp
  nsmul := nsmulRec
  zsmul := zsmulRec
  mul := (· * ·)
  left_distrib a b c := by apply Q2.ext <;> simp <;> ring
  right_distrib a b c := by apply Q2.ext <;> simp <;> ring
  zero_mul a := by apply Q2.ext <;> simp
  mul_zero a := by apply Q2.ext <;> simp
  mul_assoc a b c := by apply Q2.ext <;> simp <;> ring
  one := 1
  one_mul a := by apply Q2.ext <;> simp
  mul_one a := by apply Q2.ext <;> simp
  mul_comm a b := by apply Q2.ext <;> simp <;> ring

@[simp] theorem sub_a (x y : Q2) : (x - y).a = x.a - y.a := by
  show (x + -y).a = _; simp [sub_eq_add_neg]
@[simp] theorem sub_b (x y : Q2) : (x - y).b = x.b - y.b := by
  show (x + -y).b = _; simp [sub_eq_add_neg]
@[simp] theorem mk_a (p q : ℚ) : (Q2.mk p q).a = p := rfl
@[simp] theorem mk_b (p q : ℚ) : (Q2.mk p q).b = q := rfl
@[simp] theorem ofRat_a (q : ℚ) : (ofRat q).a = q := rfl
@[simp] theorem ofRat_b (q : ℚ) : (ofRat q).b = 0 := rfl

/-- Decide whether `a + b·√2 > 0`, by rational sign analysis (the
comparison `a > -b·√2` squares to a comparison of `a²` with `2 b²`). -/
def posB (x : Q2) : Bool :=
  if 0 < x.a then
    if 0 ≤ x.b then true
    else 2 * x.b ^ 2 < x.a ^ 2
  else if 0 < x.b then
    if 0 ≤ x.a then true
    else x.a ^ 2 < 2 * x.b ^ 2
  else false

/-- Decide `x < y` in ℚ(√2) ⊆ ℝ. -/
def ltB (x y : Q2) : Bool := posB (y - x)

end Q2

/-- The complex field over `Q2`, i.e. ℚ(√2, i): the idealized amplitude
domain of the simulator (Python `complex`). -/
@[ext] structure KC where
  re : Q2
  im : Q2
deriving DecidableEq

namespace KC

instance : Zero KC := ⟨⟨0, 0⟩⟩
instance : One KC := ⟨⟨1, 0⟩⟩
instance : Add KC := ⟨fun x y => ⟨x.re + y.re, x.im + y.im⟩⟩
instance : Neg KC := ⟨fun x => ⟨-x.re, -x.im⟩⟩
instance : Mul KC :=
  ⟨fun x y => ⟨x.re * y.re - x.im * y.im, x.re * y.im + x.im * y.re⟩⟩

@[simp] theorem add_re (x y : KC) : (x + y).re = x.re + y.re := rfl
@[simp] theorem add_im (x y : KC) : (x + y).im = x.im + y.im := rfl
@[simp] theorem mul_re (x y : KC) : (x * y).re = x.re * y.re - x.im * y.im := rfl
@[simp] theorem mul_im (x y : KC) : (x * y).im = x.re * y.im + x.im * y.re := rfl
@[simp] theorem neg_re (x : KC) : (-x).re = -x.re := rfl
@[simp] theorem neg_im (x : KC) : (-x).im = -x.im := rfl
@[simp] theorem zero_re : (0 : KC).re = 0 := rfl
@[simp] theorem zero_im : (0 : KC).im = 0 := rfl
@[simp] theorem one_re : (1 : KC).re = 1 := rfl
@[simp] theorem one_im : (1 : KC).im = 0 := rfl

instance : CommRing KC where
  add := (· + ·)
  add_assoc a b c := by apply KC.ext <;> simp <;> ring
  zero := 0
  zero_add a := by apply KC.ext <;> simp
  add_zero a := by apply KC.ext <;> simp
  add_comm a b := by apply KC.ext <;> simp <;> ring
  neg := Neg.neg
  neg_add_cancel a := by apply KC.ext <;> simp
  nsmul := nsmulRec
  zsmul := zsmulRec
  mul := (· * ·)
  left_distrib a b c := by apply KC.ext <;> simp <;> ring
  right_distrib a b c := by apply KC.ext <;> simp <;> ring
  zero_mul a := by apply KC.ext <;> simp
  mul_zero a := by apply KC.ext <;> simp
  mul_assoc a b c := by apply KC.ext <;> simp <;> ring
  one := 1
  one_mul a := by apply KC.ext <;> simp
  mul_one a := by apply KC.ext <;> simp
  mul_comm a b := by apply KC.ext <;> simp <;> ring

@[simp] theorem sub_re (x y : KC) : (x - y).re = x.re - y.re := by
  show (x + -y).re = _; simp [sub_eq_add_neg]
@[simp] theorem sub_im (x y : KC) : (x - y).im = x.im - y.im := by
  show (x + -y).im = _; simp [sub_eq_add_neg]
@[simp] theorem mk_re (p q : Q2) : (KC.mk p q).re = p := rfl
@[simp] theorem mk_im (p q : Q2) : (KC.mk p q).im = q := rfl

/-- Complex conjugate. -/
def conj (x : KC) : KC := ⟨x.re, -x.im⟩

/-- Squared magnitude `|x|²` (Python `abs(x)**2`), an element of ℚ(√2). -/
def absSq (x : KC) : Q2 := x.re * x.re + x.im * x.im

end KC

/-!
## The data model

A basis state (Python: a string of `'0'`/`'1'` characters) is a `List Bool`;
position `i` in the list is qubit `i`.  A register (Python: the dict
`self.amplitudes`) is an association list from basis state to amplitude.
-/

/-- A basis state: the bit at list position `i` is qubit `i`
(`false` = `'0'`, `true` = `'1'`). -/
abbrev BasisState := List Bool

/-- The sparse amplitude register: `self.amplitudes`, a Python dict
modelled as an insertion-ordered association list with unique keys. -/
abbrev Reg := List (BasisState × KC)

/-- `QuantumComputer._get_amplitude`: `self.amplitudes.get(basis_state, 0)`. -/
def getAmp : Reg → BasisState → KC
  | [], _ => 0
  | (k, v) :: rest, s => if k = s then v else getAmp rest s

/-- Python dict assignment `d[k] = v`: overwrite in place if the key is
present (keeping its position), else append at the end. -/
def setK : Reg → BasisState → KC → Reg
  | [], k, v => [(k, v)]
  | (k0, v0) :: rest, k, v =>
    if k0 = k then (k0, v) :: rest else (k0, v0) :: setK rest k v

/-- The keys of a register, in insertion order (`dict.keys()`). -/
def keysOf (R : Reg) : List BasisState := R.map Prod.fst

/-- `QuantumComputer.__init__`: `self.amplitudes = {'0'*num_qubits: 1+0j}`.
Python's `'0' * n` is the empty string for `n ≤ 0`, hence `Int.toNat`.
No validation of `num_qubits` is performed by the source. -/
def initComputer (num_qubits : Int) : Reg :=
  [(List.replicate num_qubits.toNat false, 1)]

/-!
## Single-qubit gate application (`QuantumComputer.apply_gate`)
-/

/-- A 2×2 complex gate matrix `gate_matrix[row][col]`. -/
structure Mat2 where
  m00 : KC
  m01 : KC
  m10 : KC
  m11 : KC
deriving DecidableEq

/-- `gate_matrix[row_index][bit_to_change]` with bits as `Bool`. -/
def Mat2.entry (M : Mat2) (row col : Bool) : KC :=
  match row, col with
  | false, false => M.m00
  | false, true => M.m01
  | true, false => M.m10
  | true, true => M.m11

/-- The squared pruning threshold: the source drops a contribution when
`abs(amp_contribution) < 1e-9`, equivalently `|c|² < 1e-18`. -/
def threshSq : Q2 := ⟨1 / 1000000000000000000, 0⟩

/-- The source's sparsity test `abs(amp_contribution) < 1e-9`, expressed on
the squared magnitude (`|c| < 1e-9 ↔ |c|² < 1e-18` for our exact values). -/
def dropSmall (c : KC) : Bool := Q2.ltB (KC.absSq c) threshSq

/-- One `row_index` iteration of the inner loop of `apply_gate`: compute the
contribution, skip it if below threshold, else accumulate it into the entry
for `basis_state` with the target bit set to `row_index`. -/
def gateInsert (M : Mat2) (t : Nat) (s : BasisState) (amp : KC) (r : Bool)
    (acc : Reg) : Reg :=
  let c := M.entry r (s.getD t false) * amp
  if dropSmall c then acc
  else
    let ns := s.set t r
    setK acc ns (getAmp acc ns + c)

/-- Processing of one register entry by `apply_gate` (the body of the outer
loop: `row_index` runs over `0`, then `1`). -/
def gateStep (M : Mat2) (t : Nat) (acc : Reg) (e : BasisState × KC) : Reg :=
  gateInsert M t e.1 e.2 true (gateInsert M t e.1 e.2 false acc)

/-- `QuantumComputer.apply_gate` for an in-range target qubit: build
`next_amplitudes` by folding the per-entry step over the current register,
starting from the empty dict. -/
def apply_gate (M : Mat2) (target_qubit : Nat) (R : Reg) : Reg :=
  R.foldl (gateStep M target_qubit) []

/-!
## Entangling operation (`QuantumComputer.entangle_qubits`)
-/

/-- Flip the target bit of a basis state
(`'1' if state_list[t]=='0' else '0'`). -/
def flipAt (t : Nat) (s : BasisState) : BasisState :=
  s.set t (!(s.getD t false))

/-- One step of the `states_to_swap` collection loop: if the control bit of
`s` is `'1'`, register the pair `(s, partner)` unless `(partner, s)` was
already registered. -/
def addPair (c t : Nat) (acc : List (BasisState × BasisState))
    (s : BasisState) : List (BasisState × BasisState) :=
  if s.getD c false = true then
    let partner := flipAt t s
    if (partner, s) ∈ acc then acc else acc ++ [(s, partner)]
  else acc

/-- The `states_to_swap` list built by `entangle_qubits`. -/
def buildPairs (c t : Nat) (ks : List BasisState) :
    List (BasisState × BasisState) :=
  ks.foldl (addPair c t) []

/-- The swap loop body: read both amplitudes from the current dict, then
write them back crosswise (`self.amplitudes[state_a] = amp_b` etc.). -/
def doSwap (R : Reg) (p : BasisState × BasisState) : Reg :=
  let amp_a := getAmp R p.1
  let amp_b := getAmp R p.2
  setK (setK R p.1 amp_b) p.2 amp_a

/-- `QuantumComputer.entangle_qubits` for in-range indices: collect the
pairs from the current keys, then swap each pair's amplitudes in place.
The source performs no thresholding here and never removes a key. -/
def entangle_qubits (control_qubit target_qubit : Nat) (R : Reg) : Reg :=
  (buildPairs control_qubit target_qubit (keysOf R)).foldl doSwap R

/-!
## Measurement (`QuantumComputer.collapse_to_measurement`)
-/

/-- Strict lexicographic order on bit strings, matching Python string
comparison of `'0'`/`'1'` strings (`'0' < '1'`, a strict prefix sorts
first). -/
def bsLT : BasisState → BasisState → Bool
  | [], [] => false
  | [], _ :: _ => true
  | _ :: _, [] => false
  | x :: xs, y :: ys => if x = y then bsLT xs ys else !x && y

/-- Non-strict lexicographic order on bit strings. -/
def bsLE (x y : BasisState) : Bool := bsLT x y || x = y

/-- Stable insertion into an ascending list (by basis-state key). -/
def insortKey (e : BasisState × KC) : Reg → Reg
  | [] => [e]
  | e2 :: rest =>
    if bsLT e.1 e2.1 then e :: e2 :: rest else e2 :: insortKey e rest

/-- `sorted(self.amplitudes.items())`: entries sorted into ascending
lexicographic key order (keys are unique, so the amplitude component of
the Python tuple comparison never participates). -/
def sortedStates : Reg → Reg
  | [] => []
  | e :: rest => insortKey e (sortedStates rest)

/-- The cumulative-probability walk of `collapse_to_measurement`: returns
the first state where `rand < cumulative_prob`, if any. -/
def walk (rand : ℚ) : Q2 → Reg → Option BasisState
  | _, [] => none
  | cum, (s, amp) :: rest =>
    let cum2 := cum + KC.absSq amp
    if Q2.ltB (Q2.ofRat rand) cum2 then some s else walk rand cum2 rest

/-- `QuantumComputer.collapse_to_measurement`, with the single uniform
draw `random.random()` passed in as `rand`.  Returns the outcome together
with the register afterwards: on a hit the register is replaced by
`{basis_state: 1+0j}`; on fallthrough (the fallback return) the register
is left untouched and the last sorted state (or `""`) is returned. -/
def collapse_to_measurement (rand : ℚ) (R : Reg) : BasisState × Reg :=
  let sorted := sortedStates R
  match walk rand 0 sorted with
  | some s => (s, [(s, 1)])
  | none => (((sorted.getLast?).map Prod.fst).getD [], R)

/-!
## The module-level gate constants
-/

/-- The amplitude `1/√2 = (1/2)·√2` (the source's `1/math.sqrt(2)`). -/
def invSqrt2 : KC := ⟨⟨0, 1 / 2⟩, 0⟩

/-- `Hadamard = [[1/√2, 1/√2], [1/√2, -1/√2]]`. -/
def Hadamard : Mat2 := ⟨invSqrt2, invSqrt2, invSqrt2, -invSqrt2⟩

/-- `PauliX = [[0, 1], [1, 0]]`. -/
def PauliX : Mat2 := ⟨0, 1, 1, 0⟩

/-- A well-formed register: unique keys (a Python dict cannot hold
duplicates) and every key of qubit-count length `n`. -/
def WF (n : Nat) (R : Reg) : Prop :=
  (keysOf R).Nodup ∧ ∀ e ∈ R, (e.1 : BasisState).length = n

/-!
## The driver scenario and concrete registers
-/

/-- The register after the driver's first two acts: `QuantumComputer(2)`,
then `apply_gate(Hadamard, 0)`, then `entangle_qubits(0, 1)`. -/
def bellScenario : Reg :=
  entangle_qubits 0 1 (apply_gate Hadamard 0 (initComputer 2))

/-- The canonical Bell-pair register `{"00": 1/√2, "11": 1/√2}` as the
spec writes it (two entries only). -/
def bellPair : Reg := [([false, false], invSqrt2), ([true, true], invSqrt2)]

/-- Helper: the driver scenario computed out.  The Hadamard step produces
`{"00": 1/√2, "10": 1/√2}`; the entangling step swaps the amplitudes of
`"10"` and its (absent) partner `"11"`, *keeping* the key `"10"` with
amplitude exactly `0`. -/
theorem bellScenario_eq :
    bellScenario =
      [([false, false], invSqrt2), ([true, false], 0), ([true, true], invSqrt2)] := by
  norm_num [bellScenario, apply_gate, gateStep, gateInsert, initComputer, setK, getAmp,
    dropSmall, Q2.ltB, Q2.posB, threshSq, Mat2.entry, Hadamard, invSqrt2, KC.absSq,
    List.replicate, entangle_qubits, buildPairs, addPair, flipAt, doSwap, keysOf]

/-- C1 (counterexample): the claim asserts the final register has *no
entries besides* `"00"` and `"11"`, but the key `"10"` is present in the
register produced by the code (with stored amplitude `0`). -/
theorem c1_counterexample :
    [true, false] ∈ keysOf bellScenario ∧
      [true, false] ≠ [false, false] ∧ [true, false] ≠ [true, true] := by
  refine ⟨?_, by simp, by simp⟩
  rw [bellScenario_eq]
  simp [keysOf]

/-- C1 (amended): starting from the 2-qubit initial register, Hadamard on
qubit 0 followed by the entangling operator with control 0 / target 1
yields the register `{"00": 1/√2, "10": 0, "11": 1/√2}`: the amplitudes of
`"00"` and `"11"` are `1/√2`, the amplitude of `"01"` and `"10"` is zero,
but `"10"` remains present as an explicit zero entry. -/
theorem c1_bell_scenario :
    bellScenario =
        [([false, false], invSqrt2), ([true, false], 0), ([true, true], invSqrt2)] ∧
      getAmp bellScenario [false, true] = 0 ∧ getAmp bellScenario [true, false] = 0 := by
  refine ⟨bellScenario_eq, ?_, ?_⟩ <;> rw [bellScenario_eq] <;> simp [getAmp]

/-- C6: measuring the Bell-pair register `{"00": 1/√2, "11": 1/√2}` with
random draw `r = 0.3` collapses to `"00"`, and with `r = 0.9` to `"11"`;
in both cases the register afterwards is exactly `{chosen: 1+0i}`. -/
theorem c6_measurement_draws :
    collapse_to_measurement (3/10) bellPair =
        ([false, false], [([false, false], 1)]) ∧
      collapse_to_measurement (9/10) bellPair =
        ([true, true], [([true, true], 1)]) := by
  constructor <;>
    norm_num [collapse_to_measurement, bellPair, sortedStates, insortKey, bsLT, walk,
      KC.absSq, invSqrt2, Q2.ltB, Q2.posB, Q2.ofRat]

/-- C8 (counterexample): the claim asserts construction *fails* for any
qubit count below 1; but `QuantumComputer(0)` performs no validation and
yields the register `{"": 1+0i}` (Python `'0' * 0` is the empty string). -/
theorem c8_counterexample : initComputer 0 = [([], 1)] := by
  norm_num [initComputer]

/-- C8 (amended): construction never fails.  For `N ≥ 1` it yields exactly
the single-entry register mapping the all-zero bit string of length `N` to
`1+0i`; for `N < 1` it yields `{"": 1+0i}` instead of failing. -/
theorem c8_construction (n : Int) :
    (1 ≤ n → initComputer n = [(List.replicate n.toNat false, 1)]) ∧
      (n < 1 → initComputer n = [([], 1)]) := by
  constructor
  · intro _; rfl
  · intro hn
    have h0 : n.toNat = 0 := Int.toNat_of_nonpos (by omega)
    simp [initComputer, h0]

/-- Witness for C8: the construction theorem applied at `N = 5` and
`N = 0`. -/
theorem c8_construction_witness :
    initComputer 5 = [(List.replicate 5 false, 1)] ∧ initComputer 0 = [([], 1)] :=
  ⟨(c8_construction 5).1 (by norm_num), (c8_construction 0).2 (by norm_num)⟩

/-!
## Order and sorting lemmas for the measurement sampler
-/

theorem bsLT_irrefl : ∀ x : BasisState, bsLT x x = false
  | [] => rfl
  | _ :: xs => by simp [bsLT, bsLT_irrefl xs]

theorem bsLT_total : ∀ x y : BasisState, bsLT x y = true ∨ bsLT y x = true ∨ x = y
  | [], [] => Or.inr (Or.inr rfl)
  | [], _ :: _ => Or.inl rfl
  | _ :: _, [] => Or.inr (Or.inl rfl)
  | x :: xs, y :: ys => by
    by_cases hxy : x = y
    · subst hxy
      rcases bsLT_total xs ys with h | h | h
      · exact Or.inl (by simp [bsLT, h])
      · exact Or.inr (Or.inl (by simp [bsLT, h]))
      · exact Or.inr (Or.inr (by simp [h]))
    · cases x <;> cases y <;> simp_all [bsLT]

theorem bsLT_trans : ∀ x y z : BasisState,
    bsLT x y = true → bsLT y z = true → bsLT x z = true
  | [], [], _, h, _ => by simp [bsLT] at h
  | [], _ :: _, [], _, h => by simp [bsLT] at h
  | [], _ :: _, _ :: _, _, _ => rfl
  | _ :: _, [], _, h, _ => by simp [bsLT] at h
  | _ :: _, _ :: _, [], _, h => by simp [bsLT] at h
  | x :: xs, y :: ys, z :: zs, h1, h2 => by
    by_cases hxy : x = y <;> by_cases hyz : y = z
    · subst hxy; subst hyz
      simp only [bsLT, if_pos rfl] at h1 h2 ⊢
      exact bsLT_trans xs ys zs h1 h2
    · subst hxy; cases x <;> cases z <;> simp_all [bsLT]
    · subst hyz; cases x <;> cases y <;> simp_all [bsLT]
    · cases x <;> cases y <;> cases z <;> simp_all [bsLT]

theorem bsLE_refl (x : BasisState) : bsLE x x = true := by simp [bsLE]

theorem bsLE_trans {x y z : BasisState} (h1 : bsLE x y = true)
    (h2 : bsLE y z = true) : bsLE x z = true := by
  simp only [bsLE, Bool.or_eq_true, decide_eq_true_eq] at h1 h2 ⊢
  rcases h1 with h1 | h1 <;> rcases h2 with h2 | h2
  · exact Or.inl (bsLT_trans x y z h1 h2)
  · subst h2; exact Or.inl h1
  · subst h1; exact Or.inl h2
  · subst h1; exact Or.inr h2

theorem bsLE_of_not_lt {x y : BasisState} (h : bsLT x y = false) :
    bsLE y x = true := by
  rcases bsLT_total x y with h1 | h1 | h1
  · rw [h1] at h; cases h
  · simp [bsLE, h1]
  · simp [bsLE, h1]

theorem mem_insortKey {a e : BasisState × KC} :
    ∀ l : Reg, a ∈ insortKey e l ↔ a = e ∨ a ∈ l
  | [] => by simp [insortKey]
  | e2 :: rest => by
    cases h : bsLT e.1 e2.1 <;>
      simp [insortKey, h, mem_insortKey rest, List.mem_cons] <;> tauto

theorem mem_sortedStates {a : BasisState × KC} :
    ∀ R : Reg, a ∈ sortedStates R ↔ a ∈ R
  | [] => Iff.rfl
  | e :: rest => by
    simp only [sortedStates, mem_insortKey, List.mem_cons, mem_sortedStates rest]

/-- The sort order used by `sortedStates`, as a relation on entries. -/
def keyLE (e1 e2 : BasisState × KC) : Prop := bsLE e1.1 e2.1 = true

theorem pairwise_insortKey {e : BasisState × KC} :
    ∀ {l : Reg}, l.Pairwise keyLE → (insortKey e l).Pairwise keyLE := by
  intro l
  induction l with
  | nil => intro _; simp [insortKey, List.pairwise_cons]
  | cons e2 rest ih =>
    intro hp
    rw [List.pairwise_cons] at hp
    simp only [insortKey]
    cases h : bsLT e.1 e2.1
    · simp only [Bool.false_eq_true, if_false, List.pairwise_cons]
      refine ⟨?_, ih hp.2⟩
      intro a ha
      rcases (mem_insortKey _).mp ha with rfl | ha
      · exact bsLE_of_not_lt h
      · exact hp.1 a ha
    · simp only [if_true, List.pairwise_cons]
      refine ⟨?_, hp.1, hp.2⟩
      intro a ha
      rcases List.mem_cons.mp ha with rfl | ha
      · show bsLE e.1 a.1 = true
        simp [bsLE, h]
      · exact bsLE_trans (show bsLE e.1 e2.1 = true by simp [bsLE, h]) (hp.1 a ha)

theorem pairwise_sortedStates : ∀ R : Reg, (sortedStates R).Pairwise keyLE
  | [] => List.Pairwise.nil
  | e :: rest => pairwise_insortKey (pairwise_sortedStates rest)

theorem pairwise_getLast_max : ∀ {l : Reg}, l.Pairwise keyLE → ∀ (hne : l ≠ []),
    ∀ a ∈ l, keyLE a (l.getLast hne)
  | [], _, hne, _, _ => absurd rfl hne
  | [e], _, _, a, ha => by
    simp only [List.mem_singleton] at ha
    subst ha
    exact bsLE_refl a.1
  | e :: e2 :: rest, hp, _, a, ha => by
    rw [List.pairwise_cons] at hp
    rw [List.getLast_cons (List.cons_ne_nil e2 rest)]
    rcases List.mem_cons.mp ha with rfl | ha
    · exact hp.1 _ (List.getLast_mem (List.cons_ne_nil e2 rest))
    · exact pairwise_getLast_max hp.2 (List.cons_ne_nil e2 rest) a ha

/-- The partial sums `cumulative_prob` takes inside the measurement loop,
starting from accumulator `c`, one value per visited entry. -/
def prefSums : Q2 → Reg → List Q2
  | _, [] => []
  | c, (_, v) :: rest => (c + KC.absSq v) :: prefSums (c + KC.absSq v) rest

theorem walk_eq_none {rand : ℚ} : ∀ (l : Reg) (c : Q2),
    (∀ p ∈ prefSums c l, Q2.ltB (Q2.ofRat rand) p = false) →
    walk rand c l = none
  | [], _, _ => rfl
  | (s, v) :: rest, c, h => by
    have h0 : Q2.ltB (Q2.ofRat rand) (c + KC.absSq v) = false :=
      h _ (by simp [prefSums])
    simp only [walk, h0, Bool.false_eq_true, if_false]
    exact walk_eq_none rest _ fun p hp => h p (by simp [prefSums, hp])

/-- C9: if the cumulative-probability walk finishes without the draw ever
being below the running total, `collapse_to_measurement` leaves the
register untouched and returns the lexicographically last present basis
state (the empty string when the register is empty). -/
theorem c9_measurement_fallback (rand : ℚ) (R : Reg)
    (h : ∀ p ∈ prefSums 0 (sortedStates R), Q2.ltB (Q2.ofRat rand) p = false) :
    (collapse_to_measurement rand R).2 = R ∧
      (R = [] → (collapse_to_measurement rand R).1 = []) ∧
      (R ≠ [] → (collapse_to_measurement rand R).1 ∈ keysOf R ∧
        ∀ k ∈ keysOf R, bsLE k (collapse_to_measurement rand R).1 = true) := by
  have hw : walk rand 0 (sortedStates R) = none := walk_eq_none _ _ h
  have hcol : collapse_to_measurement rand R =
      ((((sortedStates R).getLast?).map Prod.fst).getD [], R) := by
    simp only [collapse_to_measurement, hw]
  refine ⟨by rw [hcol], ?_, ?_⟩
  · intro hR
    subst hR
    rw [hcol]
    rfl
  · intro hR
    have hsne : sortedStates R ≠ [] := by
      rcases List.exists_mem_of_ne_nil R hR with ⟨e, he⟩
      intro hs
      exact absurd (hs ▸ (mem_sortedStates R).mpr he) (List.not_mem_nil e)
    have hlast : (sortedStates R).getLast? = some ((sortedStates R).getLast hsne) :=
      List.getLast?_eq_getLast _ hsne
    have h1 : (collapse_to_measurement rand R).1 =
        ((sortedStates R).getLast hsne).1 := by
      rw [hcol, hlast]
      rfl
    constructor
    · rw [h1]
      have : (sortedStates R).getLast hsne ∈ R :=
        (mem_sortedStates R).mp (List.getLast_mem hsne)
      exact List.mem_map_of_mem Prod.fst this
    · intro k hk
      rcases List.mem_map.mp hk with ⟨e, he, rfl⟩
      rw [h1]
      exact pairwise_getLast_max (pairwise_sortedStates R) hsne e
        ((mem_sortedStates R).mpr he)

/-- Witness for C9: measuring the Bell pair with the (out-of-range) draw
`r = 2` falls through the loop: the register is untouched and the lex-last
state `"11"` is returned. -/
theorem c9_measurement_fallback_witness :
    (collapse_to_measurement 2 bellPair).2 = bellPair ∧
      (collapse_to_measurement 2 bellPair).1 ∈ keysOf bellPair ∧
      bsLE [false, false] (collapse_to_measurement 2 bellPair).1 = true := by
  have h := c9_measurement_fallback 2 bellPair (by
    norm_num [bellPair, sortedStates, insortKey, bsLT, prefSums, KC.absSq, invSqrt2,
      Q2.ltB, Q2.posB, Q2.ofRat])
  refine ⟨h.1, (h.2.2 (by simp [bellPair])).1, ?_⟩
  exact (h.2.2 (by simp [bellPair])).2 [false, false] (by simp [bellPair, keysOf])

/-!
## Key provenance for `apply_gate`
-/

theorem keysOf_setK (R : Reg) (k : BasisState) (v : KC) :
    keysOf (setK R k v) = if k ∈ keysOf R then keysOf R else keysOf R ++ [k] := by
  induction R with
  | nil => simp [setK, keysOf]
  | cons e rest ih =>
    obtain ⟨k0, v0⟩ := e
    by_cases h : k0 = k
    · subst h
      simp [setK, keysOf]
    · simp only [setK, if_neg h, keysOf, List.map_cons] at ih ⊢
      rw [ih]
      by_cases hm : k ∈ keysOf rest <;>
        simp_all [keysOf, eq_comm]

theorem mem_keysOf_setK {x : BasisState} {R : Reg} {k : BasisState} {v : KC}
    (h : x ∈ keysOf (setK R k v)) : x ∈ keysOf R ∨ x = k := by
  rw [keysOf_setK] at h
  by_cases hm : k ∈ keysOf R
  · rw [if_pos hm] at h; exact Or.inl h
  · rw [if_neg hm] at h
    rcases List.mem_append.mp h with h | h
    · exact Or.inl h
    · exact Or.inr (by simpa using h)

theorem mem_keysOf_gateInsert {x : BasisState} {M : Mat2} {t : Nat}
    {s : BasisState} {amp : KC} {r : Bool} {acc : Reg}
    (h : x ∈ keysOf (gateInsert M t s amp r acc)) :
    x ∈ keysOf acc ∨
      (x = s.set t r ∧ dropSmall (M.entry r (s.getD t false) * amp) = false) := by
  by_cases hd : dropSmall (M.entry r (s.getD t false) * amp) = true
  · rw [gateInsert, if_pos hd] at h
    exact Or.inl h
  · rw [gateInsert, if_neg hd] at h
    rcases mem_keysOf_setK h with h | h
    · exact Or.inl h
    · exact Or.inr ⟨h, by simpa using hd⟩

theorem mem_keysOf_gate_aux {M : Mat2} {t : Nat} :
    ∀ (l : List (BasisState × KC)) (acc : Reg) (x : BasisState),
    x ∈ keysOf (l.foldl (gateStep M t) acc) →
    x ∈ keysOf acc ∨ ∃ e ∈ l, ∃ r : Bool,
      x = e.1.set t r ∧ dropSmall (M.entry r (e.1.getD t false) * e.2) = false
  | [], _, _, h => Or.inl h
  | e :: rest, acc, x, h => by
    rcases mem_keysOf_gate_aux rest _ x h with h1 | ⟨e2, he2, r, hr⟩
    · rcases mem_keysOf_gateInsert h1 with h2 | h2
      · rcases mem_keysOf_gateInsert h2 with h3 | h3
        · exact Or.inl h3
        · exact Or.inr ⟨e, List.mem_cons_self e rest, false, h3⟩
      · exact Or.inr ⟨e, List.mem_cons_self e rest, true, h2⟩
    · exact Or.inr ⟨e2, List.mem_cons_of_mem e he2, r, hr⟩

/-- C10: every key of the register produced by `apply_gate` arises from a
key of the input register by changing at most the bit at the target
position; in particular all key lengths (the qubit count) are preserved. -/
theorem c10_gate_key_provenance (M : Mat2) (t : Nat) (R : Reg) (n : Nat)
    (hwf : WF n R) (ht : t < n) :
    ∀ x ∈ keysOf (apply_gate M t R), ∃ s ∈ keysOf R, ∃ r : Bool,
      x = s.set t r ∧ x.length = s.length ∧ x.length = n := by
  intro x hx
  rcases mem_keysOf_gate_aux R [] x hx with h | ⟨e, he, r, hr, _⟩
  · simp [keysOf] at h
  · have hs : e.1 ∈ keysOf R := List.mem_map_of_mem Prod.fst he
    have hlen : e.1.length = n := hwf.2 e he
    exact ⟨e.1, hs, r, hr, by simp [hr], by simp [hr, hlen]⟩

/-- Witness for C10: the Hadamard step of the driver scenario. -/
theorem c10_gate_key_provenance_witness :
    ∃ s ∈ keysOf (initComputer 2), ∃ r : Bool,
      [true, false] = s.set 0 r ∧ ([true, false] : BasisState).length = s.length ∧
        ([true, false] : BasisState).length = 2 := by
  refine c10_gate_key_provenance Hadamard 0 (initComputer 2) 2 ⟨?_, ?_⟩ ?_ [true, false] ?_
  · simp [initComputer, keysOf]
  · intro e he
    simp only [initComputer, List.mem_singleton] at he
    subst he
    rfl
  · norm_num
  · have : apply_gate Hadamard 0 (initComputer 2) =
        [([false, false], invSqrt2), ([true, false], invSqrt2)] := by
      norm_num [apply_gate, gateStep, gateInsert, initComputer, setK, getAmp, dropSmall,
        Q2.ltB, Q2.posB, threshSq, Mat2.entry, Hadamard, invSqrt2, KC.absSq,
        List.replicate]
    rw [this]
    simp [keysOf]

/-- C5 (counterexample): the claim that no operation leaves an entry of
magnitude below `1e-9` fails: the entangling step of the driver scenario
leaves the entry `("10", 0)` in the register, of squared magnitude `0`. -/
theorem c5_counterexample :
    ([true, false], (0 : KC)) ∈ bellScenario ∧
      Q2.ltB (KC.absSq 0) threshSq = true := by
  constructor
  · rw [bellScenario_eq]
    simp
  · norm_num [Q2.ltB, Q2.posB, KC.absSq, threshSq]

/-- C5 (amended): `apply_gate` creates an output entry only from
contributions that individually pass the `1e-9` magnitude test (so a key
appears only if at least one of its contributions was kept); but
operations can still leave entries of magnitude below the threshold:
summed contributions may cancel, and `entangle_qubits` writes swapped
amplitudes back unconditionally, storing even exact zeros. -/
theorem c5_gate_threshold (M : Mat2) (t : Nat) (R : Reg) :
    ∀ x ∈ keysOf (apply_gate M t R), ∃ e ∈ R, ∃ r : Bool,
      x = e.1.set t r ∧
        dropSmall (M.entry r (e.1.getD t false) * e.2) = false := by
  intro x hx
  rcases mem_keysOf_gate_aux R [] x hx with h | h
  · simp [keysOf] at h
  · exact h

/-- Witness for C5: in the Hadamard step of the scenario, the key `"10"`
comes from the kept contribution `H[1][0] · 1 = 1/√2`. -/
theorem c5_gate_threshold_witness :
    ∃ e ∈ initComputer 2, ∃ r : Bool,
      [true, false] = e.1.set 0 r ∧
        dropSmall (Hadamard.entry r (e.1.getD 0 false) * e.2) = false := by
  refine c5_gate_threshold Hadamard 0 (initComputer 2) [true, false] ?_
  have : apply_gate Hadamard 0 (initComputer 2) =
      [([false, false], invSqrt2), ([true, false], invSqrt2)] := by
    norm_num [apply_gate, gateStep, gateInsert, initComputer, setK, getAmp, dropSmall,
      Q2.ltB, Q2.posB, threshSq, Mat2.entry, Hadamard, invSqrt2, KC.absSq,
      List.replicate]
  rw [this]
  simp [keysOf]

/-!
## Amplitude-level semantics of `entangle_qubits`
-/

theorem getAmp_setK (R : Reg) (k : BasisState) (v : KC) (x : BasisState) :
    getAmp (setK R k v) x = if x = k then v else getAmp R x := by
  induction R with
  | nil =>
    by_cases h : x = k
    · subst h; simp [setK, getAmp]
    · simp only [setK, getAmp, if_neg h, if_neg (fun hh : k = x => h hh.symm)]
  | cons e rest ih =>
    obtain ⟨k0, v0⟩ := e
    by_cases h0 : k0 = k
    · subst h0
      by_cases hx : x = k0
      · subst hx; simp [setK, getAmp]
      · simp only [setK, if_pos rfl, getAmp, if_neg (fun hh : k0 = x => hx hh.symm),
          if_neg hx]
    · simp only [setK, if_neg h0, getAmp]
      by_cases hx : k0 = x
      · have hxk : ¬x = k := fun hh => h0 (hx.trans hh)
        simp [hx, hxk]
      · simp [hx, ih]

theorem getAmp_not_mem {R : Reg} {x : BasisState} (h : x ∉ keysOf R) :
    getAmp R x = 0 := by
  induction R with
  | nil => rfl
  | cons e rest ih =>
    obtain ⟨k0, v0⟩ := e
    simp only [keysOf, List.map_cons, List.mem_cons, not_or] at h
    simp only [getAmp, if_neg (fun hh : k0 = x => h.1 hh.symm)]
    exact ih (by simpa [keysOf] using h.2)

theorem getAmp_doSwap (R : Reg) (p : BasisState × BasisState) (x : BasisState) :
    getAmp (doSwap R p) x =
      if x = p.2 then getAmp R p.1
      else if x = p.1 then getAmp R p.2
      else getAmp R x := by
  simp only [doSwap, getAmp_setK]

/-- The elements touched by a list of swap pairs. -/
def flatPairs : List (BasisState × BasisState) → List BasisState
  | [] => []
  | p :: rest => p.1 :: p.2 :: flatPairs rest

@[simp] theorem flatPairs_nil : flatPairs [] = [] := rfl
@[simp] theorem flatPairs_cons (p) (rest : List (BasisState × BasisState)) :
    flatPairs (p :: rest) = p.1 :: p.2 :: flatPairs rest := rfl

theorem flatPairs_append (P Q : List (BasisState × BasisState)) :
    flatPairs (P ++ Q) = flatPairs P ++ flatPairs Q := by
  induction P with
  | nil => rfl
  | cons p rest ih => simp [flatPairs, ih]

theorem mem_flatPairs {x : BasisState} :
    ∀ {P : List (BasisState × BasisState)},
      x ∈ flatPairs P ↔ ∃ p ∈ P, x = p.1 ∨ x = p.2 := by
  intro P
  induction P with
  | nil => simp [flatPairs]
  | cons p rest ih =>
    simp only [flatPairs_cons, List.mem_cons, ih]
    constructor
    · rintro (rfl | rfl | ⟨q, hq, hx⟩)
      · exact ⟨p, Or.inl rfl, Or.inl rfl⟩
      · exact ⟨p, Or.inl rfl, Or.inr rfl⟩
      · exact ⟨q, Or.inr hq, hx⟩
    · rintro ⟨q, (rfl | hq), hx⟩
      · tauto
      · exact Or.inr (Or.inr ⟨q, hq, hx⟩)

theorem foldl_doSwap_untouched :
    ∀ (P : List (BasisState × BasisState)) (R : Reg) (x : BasisState),
      x ∉ flatPairs P → getAmp (P.foldl doSwap R) x = getAmp R x
  | [], _, _, _ => rfl
  | p :: rest, R, x, hx => by
    simp only [flatPairs_cons, List.mem_cons] at hx
    push_neg at hx
    simp only [List.foldl_cons]
    rw [foldl_doSwap_untouched rest _ x (by tauto)]
    rw [getAmp_doSwap]
    simp [hx.1, hx.2.1]

theorem foldl_doSwap_swapped :
    ∀ (P : List (BasisState × BasisState)) (R : Reg),
      (flatPairs P).Nodup →
      ∀ p ∈ P, getAmp (P.foldl doSwap R) p.1 = getAmp R p.2 ∧
        getAmp (P.foldl doSwap R) p.2 = getAmp R p.1
  | [], _, _, p, hp => absurd hp (List.not_mem_nil p)
  | q :: rest, R, hnd, p, hp => by
    obtain ⟨q1, q2⟩ := q
    obtain ⟨p1, p2⟩ := p
    simp only [flatPairs_cons, List.nodup_cons] at hnd
    rcases List.mem_cons.mp hp with heq | hp2
    · rw [Prod.mk.injEq] at heq
      obtain ⟨rfl, rfl⟩ := heq
      have hu1 : p1 ∉ flatPairs rest := fun h => hnd.1 (List.mem_cons_of_mem _ h)
      have hu2 : p2 ∉ flatPairs rest := hnd.2.1
      simp only [List.foldl_cons]
      constructor
      · rw [foldl_doSwap_untouched rest _ p1 hu1, getAmp_doSwap]
        by_cases h12 : p1 = p2 <;> simp [h12]
      · rw [foldl_doSwap_untouched rest _ p2 hu2, getAmp_doSwap]
        simp
    · have h1 : p1 ∈ flatPairs rest := mem_flatPairs.mpr ⟨(p1, p2), hp2, Or.inl rfl⟩
      have h2 : p2 ∈ flatPairs rest := mem_flatPairs.mpr ⟨(p1, p2), hp2, Or.inr rfl⟩
      have e11 : p1 ≠ q1 := by rintro rfl; exact hnd.1 (List.mem_cons_of_mem _ h1)
      have e12 : p1 ≠ q2 := by rintro rfl; exact hnd.2.1 h1
      have e21 : p2 ≠ q1 := by rintro rfl; exact hnd.1 (List.mem_cons_of_mem _ h2)
      have e22 : p2 ≠ q2 := by rintro rfl; exact hnd.2.1 h2
      simp only [List.foldl_cons]
      have ih := foldl_doSwap_swapped rest (doSwap R (q1, q2)) hnd.2.2 (p1, p2) hp2
      refine ⟨?_, ?_⟩
      · rw [ih.1, getAmp_doSwap]
        simp [e21, e22]
      · rw [ih.2, getAmp_doSwap]
        simp [e11, e12]

theorem getD_set_self : ∀ (s : List Bool) (t : Nat) (v : Bool), t < s.length →
    (s.set t v).getD t false = v
  | [], _, _, h => absurd h (by simp)
  | _ :: _, 0, _, _ => rfl
  | x :: xs, t + 1, v, h => by
    simp only [List.set, List.getD_cons_succ]
    exact getD_set_self xs t v (by simpa using h)

theorem getD_set_ne : ∀ (s : List Bool) (t c : Nat) (v : Bool), c ≠ t →
    (s.set t v).getD c false = s.getD c false
  | [], _, _, _, _ => rfl
  | x :: xs, 0, 0, v, h => absurd rfl h
  | x :: xs, 0, c + 1, v, _ => by simp [List.set, List.getD_cons_succ]
  | x :: xs, t + 1, 0, v, _ => by simp [List.set, List.getD_cons_zero]
  | x :: xs, t + 1, c + 1, v, h => by
    simp only [List.set, List.getD_cons_succ]
    exact getD_set_ne xs t c v (fun hh => h (by omega))

theorem set_getD_self : ∀ (s : List Bool) (t : Nat), t < s.length →
    s.set t (s.getD t false) = s
  | [], _, h => absurd h (by simp)
  | x :: xs, 0, _ => rfl
  | x :: xs, t + 1, h => by
    simp only [List.set, List.getD_cons_succ, List.cons.injEq, true_and]
    exact set_getD_self xs t (by simpa using h)

theorem length_flipAt (t : Nat) (s : BasisState) :
    (flipAt t s).length = s.length := by
  simp [flipAt]

theorem flipAt_flipAt (t : Nat) (s : BasisState) : flipAt t (flipAt t s) = s := by
  by_cases h : t < s.length
  · simp only [flipAt]
    rw [getD_set_self s t _ h, List.set_set, Bool.not_not, set_getD_self s t h]
  · have h1 : ∀ v : Bool, s.set t v = s := fun v => List.set_eq_of_length_le (by omega)
    have h2 : flipAt t s = s := by rw [flipAt, h1]
    rw [h2, h2]

theorem flipAt_ne_self {t : Nat} {s : BasisState} (h : t < s.length) :
    flipAt t s ≠ s := by
  intro he
  have h1 : (flipAt t s).getD t false = !(s.getD t false) :=
    getD_set_self s t _ h
  rw [he] at h1
  cases hb : s.getD t false <;> rw [hb] at h1 <;> cases h1

theorem getD_flipAt_ne {t c : Nat} (s : BasisState) (h : c ≠ t) :
    (flipAt t s).getD c false = s.getD c false :=
  getD_set_ne s t c _ h

/-- Invariant maintained while `entangle_qubits` collects `states_to_swap`:
each registered pair is a control-1 visited key together with its
target-flip partner, no basis state occurs in two pairs, and every
control-1 visited key belongs to some pair. -/
structure PairsInv (c t : Nat) (visited : List BasisState)
    (P : List (BasisState × BasisState)) : Prop where
  shape : ∀ p ∈ P, p.2 = flipAt t p.1 ∧ p.1.getD c false = true ∧ p.1 ∈ visited
  nodup : (flatPairs P).Nodup
  cover : ∀ s ∈ visited, s.getD c false = true → ∃ p ∈ P, s = p.1 ∨ s = p.2

theorem addPair_inv {c t n : Nat} (ht : t < n) {visited : List BasisState}
    {P : List (BasisState × BasisState)} {s : BasisState}
    (hsv : s ∉ visited) (hsl : s.length = n)
    (inv : PairsInv c t visited P) :
    PairsInv c t (visited ++ [s]) (addPair c t P s) := by
  by_cases hc : s.getD c false = true
  · rw [addPair, if_pos hc]
    by_cases hmem : (flipAt t s, s) ∈ P
    · rw [if_pos hmem]
      refine ⟨fun p hp => ?_, inv.nodup, fun u hu hcu => ?_⟩
      · obtain ⟨h1, h2, h3⟩ := inv.shape p hp
        exact ⟨h1, h2, List.mem_append_left _ h3⟩
      · rcases List.mem_append.mp hu with hu | hu
        · obtain ⟨p, hp, hps⟩ := inv.cover u hu hcu
          exact ⟨p, hp, hps⟩
        · simp only [List.mem_singleton] at hu
          subst hu
          exact ⟨(flipAt t u, u), hmem, Or.inr rfl⟩
    · rw [if_neg hmem]
      have hs_not : s ∉ flatPairs P := by
        intro h
        rcases mem_flatPairs.mp h with ⟨p, hp, h1 | h2⟩
        · exact hsv (h1 ▸ (inv.shape p hp).2.2)
        · obtain ⟨hp2, _, _⟩ := inv.shape p hp
          have hp1 : p.1 = flipAt t s := by
            rw [h2, hp2, flipAt_flipAt]
          apply hmem
          have : p = (flipAt t s, s) := by
            rw [Prod.ext_iff]
            exact ⟨hp1, by rw [hp2, hp1, flipAt_flipAt]⟩
          rw [← this]
          exact hp
      have hfs_not : flipAt t s ∉ flatPairs P := by
        intro h
        rcases mem_flatPairs.mp h with ⟨p, hp, h1 | h2⟩
        · obtain ⟨hp2, _, _⟩ := inv.shape p hp
          apply hmem
          have : p = (flipAt t s, s) := by
            rw [Prod.ext_iff]
            exact ⟨h1.symm, by rw [hp2, ← h1, flipAt_flipAt]⟩
          rw [← this]
          exact hp
        · obtain ⟨hp2, _, hpv⟩ := inv.shape p hp
          rw [hp2] at h2
          have h3 := congrArg (flipAt t) h2
          rw [flipAt_flipAt, flipAt_flipAt] at h3
          exact hsv (h3 ▸ hpv)
      have hss : s ≠ flipAt t s := (flipAt_ne_self (hsl ▸ ht)).symm
      refine ⟨fun p hp => ?_, ?_, fun u hu hcu => ?_⟩
      · rcases List.mem_append.mp hp with hp | hp
        · obtain ⟨h1, h2, h3⟩ := inv.shape p hp
          exact ⟨h1, h2, List.mem_append_left _ h3⟩
        · simp only [List.mem_singleton] at hp
          subst hp
          exact ⟨rfl, hc, List.mem_append_right _ (by simp)⟩
      · rw [flatPairs_append]
        rw [List.nodup_append]
        refine ⟨inv.nodup, by simp [flatPairs, hss], ?_⟩
        intro u hu hu2
        simp only [flatPairs, List.mem_cons, List.not_mem_nil, or_false] at hu2
        rcases hu2 with rfl | rfl
        · exact hs_not hu
        · exact hfs_not hu
      · rcases List.mem_append.mp hu with hu | hu
        · obtain ⟨p, hp, hps⟩ := inv.cover u hu hcu
          exact ⟨p, List.mem_append_left _ hp, hps⟩
        · simp only [List.mem_singleton] at hu
          subst hu
          exact ⟨(u, flipAt t u), List.mem_append_right _ (by simp), Or.inl rfl⟩
  · rw [addPair, if_neg hc]
    refine ⟨fun p hp => ?_, inv.nodup, fun u hu hcu => ?_⟩
    · obtain ⟨h1, h2, h3⟩ := inv.shape p hp
      exact ⟨h1, h2, List.mem_append_left _ h3⟩
    · rcases List.mem_append.mp hu with hu | hu
      · exact inv.cover u hu hcu
      · simp only [List.mem_singleton] at hu
        subst hu
        exact absurd hcu hc

theorem foldl_addPair_inv {c t n : Nat} (ht : t < n) :
    ∀ (ks visited : List BasisState) (P : List (BasisState × BasisState)),
      (visited ++ ks).Nodup →
      (∀ s ∈ visited ++ ks, s.length = n) →
      PairsInv c t visited P →
      PairsInv c t (visited ++ ks) (ks.foldl (addPair c t) P)
  | [], visited, P, _, _, inv => by simpa using inv
  | s :: ks, visited, P, hnd, hlen, inv => by
    have hassoc : visited ++ s :: ks = (visited ++ [s]) ++ ks := by simp
    rw [hassoc] at hnd hlen ⊢
    have hsv : s ∉ visited := by
      have := List.Nodup.sublist (List.sublist_append_left _ _) hnd
      rcases List.nodup_append.mp this with ⟨_, _, hdisj⟩
      intro hs
      exact hdisj hs (by simp)
    have hsl : s.length = n := hlen s (by simp)
    exact foldl_addPair_inv ht ks (visited ++ [s]) _ hnd hlen
      (addPair_inv ht hsv hsl inv)

theorem buildPairs_inv {c t n : Nat} (ht : t < n) (ks : List BasisState)
    (hnd : ks.Nodup) (hlen : ∀ s ∈ ks, s.length = n) :
    PairsInv c t ks (buildPairs c t ks) := by
  have h : PairsInv c t ([] ++ ks) (ks.foldl (addPair c t) []) :=
    foldl_addPair_inv ht ks [] [] (by simpa using hnd)
      (by simpa using hlen) ⟨by simp, List.nodup_nil, by simp⟩
  simpa [buildPairs] using h

theorem keysOf_length {n : Nat} {R : Reg} (hwf : WF n R) :
    ∀ s ∈ keysOf R, s.length = n := by
  intro s hs
  rcases List.mem_map.mp hs with ⟨e, he, rfl⟩
  exact hwf.2 e he

/-- The extensional behaviour of `entangle_qubits`: on any basis state of
the register's qubit count, the new amplitude is the old amplitude of the
target-flipped partner when the control bit is `1`, and the old amplitude
itself when the control bit is `0`. -/
theorem entangle_getAmp {n c t : Nat} (R : Reg) (hwf : WF n R)
    (ht : t < n) (hct : c ≠ t) (x : BasisState) (hx : x.length = n) :
    getAmp (entangle_qubits c t R) x =
      if x.getD c false = true then getAmp R (flipAt t x) else getAmp R x := by
  have inv : PairsInv c t (keysOf R) (buildPairs c t (keysOf R)) :=
    buildPairs_inv ht (keysOf R) hwf.1 (keysOf_length hwf)
  rw [entangle_qubits]
  by_cases hcx : x.getD c false = true
  · rw [if_pos hcx]
    by_cases hcov : ∃ p ∈ buildPairs c t (keysOf R), x = p.1 ∨ x = p.2
    · obtain ⟨p, hp, hx1 | hx2⟩ := hcov
      · subst hx1
        rw [(foldl_doSwap_swapped _ R inv.nodup p hp).1, (inv.shape p hp).1]
      · subst hx2
        rw [(foldl_doSwap_swapped _ R inv.nodup p hp).2]
        have h1 : flipAt t p.2 = p.1 := by
          rw [(inv.shape p hp).1, flipAt_flipAt]
        rw [h1]
    · push_neg at hcov
      have hxf : x ∉ flatPairs (buildPairs c t (keysOf R)) := by
        intro h
        obtain ⟨p, hp, hps⟩ := mem_flatPairs.mp h
        exact (hps.elim (hcov p hp).1 (hcov p hp).2 : False)
      rw [foldl_doSwap_untouched _ R x hxf]
      have hxk : x ∉ keysOf R := by
        intro hk
        obtain ⟨p, hp, hps⟩ := inv.cover x hk hcx
        exact hps.elim (hcov p hp).1 (hcov p hp).2
      have hfk : flipAt t x ∉ keysOf R := by
        intro hk
        have hcf : (flipAt t x).getD c false = true := by
          rw [getD_flipAt_ne x hct]
          exact hcx
        obtain ⟨p, hp, hps⟩ := inv.cover (flipAt t x) hk hcf
        rcases hps with h1 | h2
        · have : x = p.2 := by
            rw [(inv.shape p hp).1, ← h1, flipAt_flipAt]
          exact (hcov p hp).2 this
        · have : x = p.1 := by
            have h3 := congrArg (flipAt t) h2
            rw [flipAt_flipAt, (inv.shape p hp).1, flipAt_flipAt] at h3
            exact h3
          exact (hcov p hp).1 this
      rw [getAmp_not_mem hxk, getAmp_not_mem hfk]
  · rw [if_neg hcx]
    have hxf : x ∉ flatPairs (buildPairs c t (keysOf R)) := by
      intro h
      obtain ⟨p, hp, hps⟩ := mem_flatPairs.mp h
      obtain ⟨hp2, hpc, _⟩ := inv.shape p hp
      rcases hps with rfl | rfl
      · exact hcx hpc
      · rw [hp2] at hcx
        rw [getD_flipAt_ne p.1 hct] at hcx
        exact hcx hpc
    exact foldl_doSwap_untouched _ R x hxf

theorem mem_setK {e : BasisState × KC} :
    ∀ {R : Reg} {k : BasisState} {v : KC},
      e ∈ setK R k v → e ∈ R ∨ e = (k, v)
  | [], k, v, h => by simpa [setK] using h
  | (k0, v0) :: rest, k, v, h => by
    by_cases h0 : k0 = k
    · subst h0
      rw [setK, if_pos rfl] at h
      rcases List.mem_cons.mp h with rfl | h
      · exact Or.inr rfl
      · exact Or.inl (List.mem_cons_of_mem _ h)
    · rw [setK, if_neg h0] at h
      rcases List.mem_cons.mp h with rfl | h
      · exact Or.inl (List.mem_cons_self _ _)
      · rcases mem_setK h with h | h
        · exact Or.inl (List.mem_cons_of_mem _ h)
        · exact Or.inr h

theorem WF_setK {n : Nat} {R : Reg} {k : BasisState} {v : KC}
    (hwf : WF n R) (hk : k.length = n) : WF n (setK R k v) := by
  constructor
  · rw [keysOf_setK]
    by_cases hm : k ∈ keysOf R
    · rw [if_pos hm]; exact hwf.1
    · rw [if_neg hm]
      rw [List.nodup_append]
      refine ⟨hwf.1, List.nodup_singleton k, fun u hu hu2 => ?_⟩
      simp only [List.mem_singleton] at hu2
      exact hm (hu2 ▸ hu)
  · intro e he
    rcases mem_setK he with he | rfl
    · exact hwf.2 e he
    · exact hk

theorem WF_foldl_doSwap {n : Nat} :
    ∀ (P : List (BasisState × BasisState)) (R : Reg), WF n R →
      (∀ p ∈ P, p.1.length = n ∧ p.2.length = n) → WF n (P.foldl doSwap R)
  | [], _, hwf, _ => hwf
  | p :: rest, R, hwf, hp => by
    simp only [List.foldl_cons]
    refine WF_foldl_doSwap rest _ ?_ fun q hq => hp q (List.mem_cons_of_mem _ hq)
    have h1 := hp p (List.mem_cons_self _ _)
    exact WF_setK (WF_setK hwf h1.1) h1.2

/-- `entangle_qubits` preserves well-formedness. -/
theorem WF_entangle {n c t : Nat} {R : Reg} (hwf : WF n R) (ht : t < n) :
    WF n (entangle_qubits c t R) := by
  have inv : PairsInv c t (keysOf R) (buildPairs c t (keysOf R)) :=
    buildPairs_inv ht (keysOf R) hwf.1 (keysOf_length hwf)
  refine WF_foldl_doSwap _ R hwf fun p hp => ?_
  obtain ⟨h1, _, h3⟩ := inv.shape p hp
  have hl1 : p.1.length = n := keysOf_length hwf _ h3
  exact ⟨hl1, by rw [h1, length_flipAt]; exact hl1⟩

/-- C3: applying the entangling operator twice with the same in-range,
distinct control/target indices restores the original register as a
mapping from basis states to amplitudes (an absent key reads as `0+0i`
through the amplitude lookup). -/
theorem c3_entangle_self_inverse (R : Reg) (n c t : Nat) (hwf : WF n R)
    (hc : c < n) (ht : t < n) (hct : c ≠ t) :
    ∀ x : BasisState, x.length = n →
      getAmp (entangle_qubits c t (entangle_qubits c t R)) x = getAmp R x := by
  intro x hx
  have hwf2 : WF n (entangle_qubits c t R) := WF_entangle hwf ht
  rw [entangle_getAmp _ hwf2 ht hct x hx]
  by_cases hcx : x.getD c false = true
  · rw [if_pos hcx]
    rw [entangle_getAmp _ hwf ht hct (flipAt t x) (by rw [length_flipAt]; exact hx)]
    rw [if_pos (by rw [getD_flipAt_ne x hct]; exact hcx), flipAt_flipAt]
  · rw [if_neg hcx]
    rw [entangle_getAmp _ hwf ht hct x hx, if_neg hcx]

/-- Witness for C3: a double CNOT(0,1) on the Bell-pair register leaves
the amplitude of `"11"` unchanged. -/
theorem c3_entangle_self_inverse_witness :
    getAmp (entangle_qubits 0 1 (entangle_qubits 0 1 bellPair)) [true, true] =
      getAmp bellPair [true, true] := by
  refine c3_entangle_self_inverse bellPair 2 0 1 ⟨?_, ?_⟩ ?_ ?_ ?_ [true, true] rfl
  · simp [bellPair, keysOf]
  · intro e he
    rcases List.mem_cons.mp he with rfl | he
    · rfl
    · rcases List.mem_cons.mp he with rfl | he
      · rfl
      · cases he
  · omega
  · omega
  · omega

/-- C4: the entangling operator leaves the amplitude of every basis state
whose control bit is `0` unchanged. -/
theorem c4_entangle_fixes_control0 (R : Reg) (n c t : Nat) (hwf : WF n R)
    (hc : c < n) (ht : t < n) (hct : c ≠ t) :
    ∀ x : BasisState, x.length = n → x.getD c false = false →
      getAmp (entangle_qubits c t R) x = getAmp R x := by
  intro x hx hcx
  rw [entangle_getAmp _ hwf ht hct x hx, if_neg (by rw [hcx]; simp)]

/-- Witness for C4: CNOT(0,1) on the Bell pair leaves the control-0 state
`"01"` at its (zero) amplitude. -/
theorem c4_entangle_fixes_control0_witness :
    getAmp (entangle_qubits 0 1 bellPair) [false, true] =
      getAmp bellPair [false, true] := by
  refine c4_entangle_fixes_control0 bellPair 2 0 1 ⟨?_, ?_⟩ ?_ ?_ ?_ [false, true] rfl rfl
  · simp [bellPair, keysOf]
  · intro e he
    rcases List.mem_cons.mp he with rfl | he
    · rfl
    · rcases List.mem_cons.mp he with rfl | he
      · rfl
      · cases he
  · omega
  · omega
  · omega

/-!
## Index handling (`apply_gate` / `entangle_qubits` with raw indices)

The source performs no explicit index validation.  The only failures are
Python `IndexError`s raised by string subscription, and Python indexing
accepts negative indices down to `-len` (which address `len + i`).  We
model raw integer indices with `pyIdx` and the two operations as
`Except`-valued functions that fail exactly where the Python code raises.
-/

/-- Python sequence subscription `seq[i]` for a sequence of length `len`:
`some` resolved position, or `none` for an `IndexError`. -/
def pyIdx (len : Nat) (i : Int) : Option Nat :=
  if 0 ≤ i then
    if i < (len : Int) then some i.toNat else none
  else
    if -i ≤ (len : Int) then some (len - (-i).toNat) else none

/-- One outer-loop step of `apply_gate` with a raw integer target index:
`basis_state[target_qubit]` (and the later `state_list[target_qubit] = …`)
raise iff `pyIdx` fails on the key. -/
def gateStepE (M : Mat2) (t : Int) (acc : Reg) (e : BasisState × KC) :
    Except Unit Reg :=
  match pyIdx e.1.length t with
  | none => Except.error ()
  | some i => Except.ok (gateStep M i acc e)

/-- `QuantumComputer.apply_gate` with its raw integer `target_qubit`. -/
def apply_gateE (M : Mat2) (target_qubit : Int) (R : Reg) : Except Unit Reg :=
  R.foldlM (gateStepE M target_qubit) []

/-- One step of the pair-collection loop of `entangle_qubits` with raw
integer indices: the control bit is read on every key; the target bit is
read (and flipped) only on control-1 keys. -/
def addPairE (c t : Int) (acc : List (BasisState × BasisState))
    (s : BasisState) : Except Unit (List (BasisState × BasisState)) :=
  match pyIdx s.length c with
  | none => Except.error ()
  | some ci =>
    if s.getD ci false = true then
      match pyIdx s.length t with
      | none => Except.error ()
      | some ti =>
        let partner := flipAt ti s
        Except.ok (if (partner, s) ∈ acc then acc else acc ++ [(s, partner)])
    else Except.ok acc

/-- `QuantumComputer.entangle_qubits` with raw integer indices. -/
def entangle_qubitsE (control_qubit target_qubit : Int) (R : Reg) :
    Except Unit Reg :=
  match (keysOf R).foldlM (addPairE control_qubit target_qubit) [] with
  | Except.error e => Except.error e
  | Except.ok P => Except.ok (P.foldl doSwap R)

theorem pyIdx_none_iff (n : Nat) (t : Int) :
    pyIdx n t = none ↔ (n : Int) ≤ t ∨ t < -(n : Int) := by
  unfold pyIdx
  split_ifs with h1 h2 h3 <;> simp <;> omega

theorem foldlM_gateStepE_ok {M : Mat2} {t : Int} {n i : Nat}
    (hi : pyIdx n t = some i) :
    ∀ (l : List (BasisState × KC)) (acc : Reg),
      (∀ e ∈ l, (e.1 : BasisState).length = n) →
      l.foldlM (gateStepE M t) acc = Except.ok (l.foldl (gateStep M i) acc)
  | [], acc, _ => rfl
  | e :: rest, acc, hl => by
    have he : e.1.length = n := hl e (List.mem_cons_self _ _)
    have hstep : gateStepE M t acc e = Except.ok (gateStep M i acc e) := by
      rw [gateStepE, he, hi]
    rw [List.foldlM_cons, hstep, List.foldl_cons]
    exact foldlM_gateStepE_ok hi rest _ fun e2 h2 => hl e2 (List.mem_cons_of_mem _ h2)

theorem foldlM_addPairE_ok {c t : Int} {n ci ti : Nat}
    (hc : pyIdx n c = some ci) (ht : pyIdx n t = some ti) :
    ∀ (ks : List BasisState) (acc : List (BasisState × BasisState)),
      (∀ s ∈ ks, s.length = n) →
      ks.foldlM (addPairE c t) acc = Except.ok (ks.foldl (addPair ci ti) acc)
  | [], _, _ => rfl
  | s :: ks, acc, hl => by
    have hs : s.length = n := hl s (List.mem_cons_self _ _)
    have hstep : addPairE c t acc s = Except.ok (addPair ci ti acc s) := by
      simp only [addPairE, hs, hc]
      by_cases hbit : s.getD ci false = true
      · simp only [hbit, if_true, ht, addPair]
      · simp only [hbit, if_false, addPair, Bool.false_eq_true]
    rw [List.foldlM_cons, hstep, List.foldl_cons]
    exact foldlM_addPairE_ok hc ht ks _ fun u hu => hl u (List.mem_cons_of_mem _ hu)

/-- Bridge: a non-negative in-range target makes the raw-index model agree
with `apply_gate`. -/
theorem apply_gateE_bridge (M : Mat2) (i n : Nat) (R : Reg) (hwf : WF n R)
    (hi : i < n) : apply_gateE M (i : Int) R = Except.ok (apply_gate M i R) := by
  have hp : pyIdx n (i : Int) = some i := by
    unfold pyIdx
    rw [if_pos (by omega), if_pos (by omega)]
    simp
  exact foldlM_gateStepE_ok hp R [] hwf.2

/-- Bridge: whenever both raw indices resolve (Python accepts them), the
raw-index entangling model agrees with `entangle_qubits` at the resolved
positions. -/
theorem entangle_qubitsE_bridge (c t : Int) (ci ti n : Nat) (R : Reg)
    (hwf : WF n R) (hc : pyIdx n c = some ci) (ht : pyIdx n t = some ti) :
    entangle_qubitsE c t R = Except.ok (entangle_qubits ci ti R) := by
  rw [entangle_qubitsE, foldlM_addPairE_ok hc ht (keysOf R) [] (keysOf_length hwf)]
  rfl

theorem except_ok_bind {α β : Type} (a : α) (f : α → Except Unit β) :
    (Except.ok a >>= f) = f a := rfl

theorem apply_gateE_error_iff (M : Mat2) (t : Int) (n : Nat) (R : Reg)
    (hwf : WF n R) (hne : R ≠ []) :
    apply_gateE M t R = Except.error () ↔ ((n : Int) ≤ t ∨ t < -(n : Int)) := by
  constructor
  · intro herr
    by_contra hrange
    have hsome : ∃ i, pyIdx n t = some i := by
      cases hp : pyIdx n t with
      | none => exact absurd ((pyIdx_none_iff n t).mp hp) hrange
      | some i => exact ⟨i, rfl⟩
    obtain ⟨i, hi⟩ := hsome
    rw [apply_gateE, foldlM_gateStepE_ok hi R [] hwf.2] at herr
    cases herr
  · intro hrange
    have hp : pyIdx n t = none := (pyIdx_none_iff n t).mpr hrange
    obtain ⟨e, rest, rfl⟩ : ∃ e rest, R = e :: rest := by
      cases R with
      | nil => exact absurd rfl hne
      | cons e rest => exact ⟨e, rest, rfl⟩
    have he : e.1.length = n := hwf.2 e (List.mem_cons_self _ _)
    have hstep : gateStepE M t [] e = Except.error () := by
      simp only [gateStepE, he, hp]
    rw [apply_gateE, List.foldlM_cons, hstep]
    rfl

/-- C7 (counterexample): the claim asserts that equal control/target
indices, and any index outside `[0, N)`, fail with an InvalidIndex
condition.  Neither holds: `entangle_qubits(0, 0)` runs to completion on
the Bell pair, and `apply_gate` with target `-1` succeeds via Python's
negative indexing (addressing qubit `N-1`). -/
theorem c7_counterexample :
    entangle_qubitsE 0 0 bellPair =
        Except.ok
          [([false, false], invSqrt2), ([true, true], 0), ([false, true], invSqrt2)] ∧
      apply_gateE PauliX (-1) bellPair =
        Except.ok [([false, true], invSqrt2), ([true, false], invSqrt2)] := by
  constructor <;>
    norm_num [entangle_qubitsE, apply_gateE, addPairE, gateStepE, pyIdx, keysOf,
      bellPair, addPair, flipAt, doSwap, setK, getAmp, gateStep, gateInsert, dropSmall,
      Q2.ltB, Q2.posB, threshSq, Mat2.entry, PauliX, invSqrt2, KC.absSq,
      List.foldlM_cons, List.foldlM_nil, buildPairs, except_ok_bind]

/-- C7 (amended): the code performs no explicit index validation.  For a
nonempty well-formed register of `N`-bit keys, `apply_gate` fails (with a
Python IndexError) exactly when the raw target index is `≥ N` or `< -N`;
every index Python accepts — including negative ones, which address
position `N + i` — executes normally, and `entangle_qubits` likewise runs
to completion (never an InvalidIndex condition) whenever its two indices
individually resolve, even when they are equal. -/
theorem c7_no_index_validation (M : Mat2) (t c u : Int) (n : Nat) (R : Reg)
    (hwf : WF n R) (hne : R ≠ []) :
    (apply_gateE M t R = Except.error () ↔ ((n : Int) ≤ t ∨ t < -(n : Int))) ∧
      (∀ ci ti : Nat, pyIdx n c = some ci → pyIdx n u = some ti →
        entangle_qubitsE c u R = Except.ok (entangle_qubits ci ti R)) :=
  ⟨apply_gateE_error_iff M t n R hwf hne,
   fun ci ti hci hti => entangle_qubitsE_bridge c u ci ti n R hwf hci hti⟩

/-- Witness for C7: on the Bell pair, target `5` raises, while equal
indices `(0, 0)` in the entangling operation succeed. -/
theorem c7_no_index_validation_witness :
    apply_gateE PauliX 5 bellPair = Except.error () ∧
      entangle_qubitsE 0 0 bellPair =
        Except.ok (entangle_qubits 0 0 bellPair) := by
  have hwf : WF 2 bellPair := by
    constructor
    · simp [bellPair, keysOf]
    · intro e he
      rcases List.mem_cons.mp he with rfl | he
      · rfl
      · rcases List.mem_cons.mp he with rfl | he
        · rfl
        · cases he
  have h := c7_no_index_validation PauliX 5 0 0 2 bellPair hwf (by simp [bellPair])
  exact ⟨h.1.mpr (by norm_num), h.2 0 0 (by norm_num [pyIdx]) (by norm_num [pyIdx])⟩

/-!
## Normalization: the algebra of 2×2 unitaries over `KC`
-/

namespace KC

theorem conj_add (x y : KC) : KC.conj (x + y) = KC.conj x + KC.conj y := by
  apply KC.ext <;> simp [KC.conj] <;> ring

theorem conj_mul (x y : KC) : KC.conj (x * y) = KC.conj x * KC.conj y := by
  apply KC.ext <;> simp [KC.conj] <;> ring

theorem conj_conj (x : KC) : KC.conj (KC.conj x) = x := by
  apply KC.ext <;> simp [KC.conj]

theorem conj_zero : KC.conj 0 = 0 := by
  apply KC.ext <;> simp [KC.conj]

theorem mul_conj_re (z : KC) : (z * KC.conj z).re = KC.absSq z := by
  simp [KC.conj, KC.absSq]

end KC

/-- `M† M = I` for the 2×2 matrix `M`: the gate is unitary. -/
def IsUnitary (M : Mat2) : Prop :=
  KC.conj M.m00 * M.m00 + KC.conj M.m10 * M.m10 = 1 ∧
    KC.conj M.m01 * M.m01 + KC.conj M.m11 * M.m11 = 1 ∧
    KC.conj M.m00 * M.m01 + KC.conj M.m10 * M.m11 = 0

theorem unitary_norm_pair (M : Mat2) (hU : IsUnitary M) (x y : KC) :
    KC.absSq (M.m00 * x + M.m01 * y) + KC.absSq (M.m10 * x + M.m11 * y) =
      KC.absSq x + KC.absSq y := by
  obtain ⟨h1, h2, h3⟩ := hU
  have h3c : M.m00 * KC.conj M.m01 + M.m10 * KC.conj M.m11 = 0 := by
    have h := congrArg KC.conj h3
    rw [KC.conj_add, KC.conj_mul, KC.conj_mul, KC.conj_conj, KC.conj_conj,
      KC.conj_zero] at h
    linear_combination h
  have key : (M.m00 * x + M.m01 * y) * KC.conj (M.m00 * x + M.m01 * y) +
      (M.m10 * x + M.m11 * y) * KC.conj (M.m10 * x + M.m11 * y) =
      x * KC.conj x + y * KC.conj y := by
    simp only [KC.conj_add, KC.conj_mul]
    linear_combination (x * KC.conj x) * h1 + (y * KC.conj y) * h2 +
      (KC.conj x * y) * h3 + (x * KC.conj y) * h3c
  have hre := congrArg KC.re key
  rw [KC.add_re, KC.add_re, KC.mul_conj_re, KC.mul_conj_re, KC.mul_conj_re,
    KC.mul_conj_re] at hre
  exact hre

/-!
## Σ|amplitude|² bookkeeping
-/

/-- The total squared magnitude `Σ|amplitude|²` of a register. -/
def sumSq (R : Reg) : Q2 := (R.map (fun e => KC.absSq e.2)).sum

theorem absSq_zero : KC.absSq 0 = 0 := by
  simp [KC.absSq]

theorem dropSmall_zero : dropSmall 0 = true := by
  norm_num [dropSmall, KC.absSq, Q2.ltB, Q2.posB, threshSq]

theorem getAmp_of_mem_nodup {R : Reg} {k : BasisState} {v : KC}
    (hnd : (keysOf R).Nodup) (hm : (k, v) ∈ R) : getAmp R k = v := by
  induction R with
  | nil => cases hm
  | cons e rest ih =>
    obtain ⟨k0, v0⟩ := e
    simp only [keysOf, List.map_cons, List.nodup_cons] at hnd
    rcases List.mem_cons.mp hm with heq | hm2
    · rw [Prod.mk.injEq] at heq
      obtain ⟨rfl, rfl⟩ := heq
      simp [getAmp]
    · have hk : k0 ≠ k := by
        rintro rfl
        exact hnd.1 (List.mem_map_of_mem Prod.fst hm2)
      simp only [getAmp, if_neg hk]
      exact ih (by simpa [keysOf] using hnd.2) hm2

theorem nodup_keys_setK {R : Reg} {k : BasisState} {v : KC}
    (h : (keysOf R).Nodup) : (keysOf (setK R k v)).Nodup := by
  rw [keysOf_setK]
  by_cases hm : k ∈ keysOf R
  · rwa [if_pos hm]
  · rw [if_neg hm, List.nodup_append]
    refine ⟨h, List.nodup_singleton k, fun u hu hu2 => ?_⟩
    simp only [List.mem_singleton] at hu2
    exact hm (hu2 ▸ hu)

theorem nodup_keys_gateInsert {M : Mat2} {t : Nat} {s : BasisState} {amp : KC}
    {r : Bool} {acc : Reg} (h : (keysOf acc).Nodup) :
    (keysOf (gateInsert M t s amp r acc)).Nodup := by
  rw [gateInsert]
  split_ifs with hd
  · exact h
  · exact nodup_keys_setK h

theorem nodup_keys_apply_gate (M : Mat2) (t : Nat) (R : Reg) :
    (keysOf (apply_gate M t R)).Nodup := by
  suffices h : ∀ (l : List (BasisState × KC)) (acc : Reg), (keysOf acc).Nodup →
      (keysOf (l.foldl (gateStep M t) acc)).Nodup by
    exact h R [] List.nodup_nil
  intro l
  induction l with
  | nil => intro acc h; exact h
  | cons e rest ih =>
    intro acc h
    exact ih _ (nodup_keys_gateInsert (nodup_keys_gateInsert h))

theorem sumSq_eq_finset {S : Reg} (h : (keysOf S).Nodup) :
    sumSq S = ∑ k ∈ (keysOf S).toFinset, KC.absSq (getAmp S k) := by
  induction S with
  | nil => simp [sumSq, keysOf]
  | cons e rest ih =>
    obtain ⟨k0, v0⟩ := e
    simp only [keysOf, List.map_cons, List.nodup_cons] at h
    have hnotin : k0 ∉ (keysOf rest).toFinset := by
      rw [List.mem_toFinset]
      exact h.1
    rw [sumSq, List.map_cons, List.sum_cons]
    show KC.absSq v0 + sumSq rest = _
    rw [ih h.2]
    have htf : (keysOf ((k0, v0) :: rest)).toFinset =
        insert k0 (keysOf rest).toFinset := by
      simp [keysOf]
    rw [htf, Finset.sum_insert hnotin]
    have h0 : getAmp ((k0, v0) :: rest) k0 = v0 := by simp [getAmp]
    rw [h0]
    congr 1
    refine Finset.sum_congr rfl fun k hk => ?_
    have hk0 : k0 ≠ k := by
      rintro rfl
      exact h.1 (List.mem_toFinset.mp hk)
    simp [getAmp, hk0]

theorem sum_getAmp_superset {S : Reg} (h : (keysOf S).Nodup)
    (T : Finset BasisState) (hsub : ∀ k ∈ keysOf S, k ∈ T) :
    ∑ k ∈ T, KC.absSq (getAmp S k) = sumSq S := by
  rw [sumSq_eq_finset h]
  refine (Finset.sum_subset ?_ ?_).symm
  · intro k hk
    exact hsub k (List.mem_toFinset.mp hk)
  · intro k _ hk
    rw [getAmp_not_mem (fun hm => hk (List.mem_toFinset.mpr hm)), absSq_zero]

theorem sum_map_add {α : Type} (l : List α) (f g : α → KC) :
    (l.map (fun a => f a + g a)).sum = (l.map f).sum + (l.map g).sum := by
  induction l with
  | nil => simp
  | cons a rest ih =>
    simp only [List.map_cons, List.sum_cons, ih]
    ring

theorem list_sum_if_key {R : Reg} (hnd : (keysOf R).Nodup) (k : BasisState)
    (c : KC) :
    (R.map (fun e => if e.1 = k then c * e.2 else 0)).sum = c * getAmp R k := by
  induction R with
  | nil => simp [getAmp]
  | cons e rest ih =>
    obtain ⟨k0, v0⟩ := e
    simp only [keysOf, List.map_cons, List.nodup_cons] at hnd
    simp only [List.map_cons, List.sum_cons]
    by_cases h0 : k0 = k
    · subst h0
      have hrest : getAmp rest k0 = 0 :=
        getAmp_not_mem (by simpa [keysOf] using hnd.1)
      have : (rest.map (fun e => if e.1 = k0 then c * e.2 else 0)).sum =
          c * getAmp rest k0 := ih (by simpa [keysOf] using hnd.2)
      rw [this, hrest]
      simp [getAmp]
    · simp only [if_neg h0, getAmp, if_neg h0]
      rw [ih (by simpa [keysOf] using hnd.2)]
      ring

/-- The exact (un-thresholded) contribution of register entry `e` to the
output amplitude at basis state `x` under `apply_gate`. -/
def contribAt (M : Mat2) (t : Nat) (e : BasisState × KC) (x : BasisState) : KC :=
  (if x = e.1.set t false then M.entry false (e.1.getD t false) * e.2 else 0) +
    (if x = e.1.set t true then M.entry true (e.1.getD t false) * e.2 else 0)

/-- The no-drop condition: every contribution the gate loop computes for
entry `e` is either exactly zero or passes the `1e-9` threshold. -/
def NoDrop (M : Mat2) (t : Nat) (R : Reg) : Prop :=
  ∀ e ∈ R, ∀ r : Bool,
    M.entry r (e.1.getD t false) * e.2 = 0 ∨
      dropSmall (M.entry r (e.1.getD t false) * e.2) = false

theorem getAmp_gateInsert {M : Mat2} {t : Nat} {s : BasisState} {amp : KC}
    {r : Bool} {acc : Reg} (x : BasisState)
    (h : M.entry r (s.getD t false) * amp = 0 ∨
      dropSmall (M.entry r (s.getD t false) * amp) = false) :
    getAmp (gateInsert M t s amp r acc) x =
      getAmp acc x +
        (if x = s.set t r then M.entry r (s.getD t false) * amp else 0) := by
  rcases h with h | h
  · rw [gateInsert]
    rw [h, dropSmall_zero]
    simp
  · simp only [gateInsert, h, Bool.false_eq_true, if_false]
    rw [getAmp_setK]
    by_cases hx : x = s.set t r
    · rw [if_pos hx, if_pos hx, hx]
    · rw [if_neg hx, if_neg hx]
      ring

theorem getAmp_gateStep {M : Mat2} {t : Nat} {acc : Reg} {e : BasisState × KC}
    (x : BasisState)
    (h : ∀ r : Bool, M.entry r (e.1.getD t false) * e.2 = 0 ∨
      dropSmall (M.entry r (e.1.getD t false) * e.2) = false) :
    getAmp (gateStep M t acc e) x = getAmp acc x + contribAt M t e x := by
  rw [gateStep, getAmp_gateInsert x (h true), getAmp_gateInsert x (h false),
    contribAt]
  ring

theorem getAmp_foldl_gate {M : Mat2} {t : Nat} :
    ∀ (l : List (BasisState × KC)) (acc : Reg) (x : BasisState),
      (∀ e ∈ l, ∀ r : Bool, M.entry r (e.1.getD t false) * e.2 = 0 ∨
        dropSmall (M.entry r (e.1.getD t false) * e.2) = false) →
      getAmp (l.foldl (gateStep M t) acc) x =
        getAmp acc x + (l.map (fun e => contribAt M t e x)).sum
  | [], _, _, _ => by simp
  | e :: rest, acc, x, h => by
    simp only [List.foldl_cons, List.map_cons, List.sum_cons]
    rw [getAmp_foldl_gate rest _ x fun u hu => h u (List.mem_cons_of_mem _ hu)]
    rw [getAmp_gateStep x (h e (List.mem_cons_self _ _))]
    ring

/-- Under the no-drop condition the new amplitude at every basis state is
the exact sum of the matrix contributions. -/
theorem getAmp_apply_gate {M : Mat2} {t : Nat} {R : Reg}
    (h : NoDrop M t R) (x : BasisState) :
    getAmp (apply_gate M t R) x = (R.map (fun e => contribAt M t e x)).sum := by
  rw [apply_gate, getAmp_foldl_gate R [] x h]
  simp [getAmp]

/-!
## Pairing the basis states along the target bit
-/

theorem set_id_of_getD {s : BasisState} {t : Nat} (ht : t < s.length)
    (h : s.getD t false = false) : s.set t false = s := by
  have h2 := set_getD_self s t ht
  rwa [h] at h2

theorem recover_set {s : BasisState} (t : Nat) (hs : t < s.length) (v : Bool) :
    (s.set t v).set t (s.getD t false) = s := by
  rw [List.set_set]
  exact set_getD_self s t hs

theorem set_id_of_getD_true {s : BasisState} {t : Nat} (ht : t < s.length)
    (h : s.getD t false = true) : s.set t true = s := by
  have h2 := set_getD_self s t ht
  rwa [h] at h2

theorem ne_set_true {y : BasisState} {t : Nat} (ht : t < y.length)
    (hy : y.getD t false = false) : y ≠ y.set t true := by
  intro h
  have h1 := getD_set_self y t true ht
  rw [← h, hy] at h1
  cases h1

theorem set_true_ne_set_false {s y : BasisState} {t : Nat} (hs : t < s.length)
    (hyt : t < y.length) : y.set t true ≠ s.set t false := by
  intro h
  have h1 := getD_set_self y t true hyt
  rw [h, getD_set_self s t false hs] at h1
  cases h1

theorem set_false_eq_iff {s y : BasisState} {t : Nat} (hs : t < s.length)
    (hyt : t < y.length) (hy : y.getD t false = false) :
    s.set t false = y ↔ s = y ∨ s = y.set t true := by
  constructor
  · intro h
    have hrec : (s.set t false).set t (s.getD t false) = s := recover_set t hs false
    rw [h] at hrec
    cases hb : s.getD t false
    · rw [hb] at hrec
      exact Or.inl (by rw [← hrec, set_id_of_getD hyt hy])
    · rw [hb] at hrec
      exact Or.inr hrec.symm
  · rintro (rfl | rfl)
    · exact set_id_of_getD hs hy
    · rw [List.set_set]
      exact set_id_of_getD hyt hy

theorem set_true_eq_iff {s y : BasisState} {t : Nat} (hs : t < s.length)
    (hyt : t < y.length) (hy : y.getD t false = false) :
    s.set t true = y.set t true ↔ s = y ∨ s = y.set t true := by
  constructor
  · intro h
    have h2 : s.set t false = y := by
      have := congrArg (fun l => l.set t false) h
      simp only [List.set_set] at this
      rw [this, set_id_of_getD hyt hy]
    exact (set_false_eq_iff hs hyt hy).mp h2
  · rintro (rfl | rfl)
    · rfl
    · rw [List.set_set]

theorem contribAt_eval_false (M : Mat2) (t : Nat) (s y : BasisState) (a : KC)
    (hs : t < s.length) (hyt : t < y.length) (hy : y.getD t false = false) :
    contribAt M t (s, a) y =
      (if s = y then M.m00 * a else 0) +
        (if s = y.set t true then M.m01 * a else 0) := by
  rw [contribAt]
  have h2 : y ≠ s.set t true := by
    intro h
    have h1 := getD_set_self s t true hs
    rw [← h, hy] at h1
    cases h1
  rw [if_neg h2, add_zero]
  by_cases h1 : s = y
  · subst h1
    rw [if_pos (set_id_of_getD hs hy).symm, if_pos rfl,
      if_neg (ne_set_true hs hy), add_zero, hy]
    rfl
  · by_cases hsy : s = y.set t true
    · subst hsy
      have hbit : (y.set t true).getD t false = true := getD_set_self y t true hyt
      rw [if_pos (by rw [List.set_set]; exact (set_id_of_getD hyt hy).symm),
        if_neg h1, if_pos rfl, zero_add, hbit]
      rfl
    · rw [if_neg (fun h => (((set_false_eq_iff hs hyt hy).mp h.symm).elim h1 hsy)),
        if_neg h1, if_neg hsy, add_zero]

theorem contribAt_eval_true (M : Mat2) (t : Nat) (s y : BasisState) (a : KC)
    (hs : t < s.length) (hyt : t < y.length) (hy : y.getD t false = false) :
    contribAt M t (s, a) (y.set t true) =
      (if s = y then M.m10 * a else 0) +
        (if s = y.set t true then M.m11 * a else 0) := by
  rw [contribAt]
  rw [if_neg (set_true_ne_set_false hs hyt), zero_add]
  by_cases h1 : s = y
  · subst h1
    rw [if_pos rfl, if_pos rfl, if_neg (ne_set_true hs hy), add_zero, hy]
    rfl
  · by_cases hsy : s = y.set t true
    · subst hsy
      have hbit : (y.set t true).getD t false = true := getD_set_self y t true hyt
      rw [if_pos (by rw [List.set_set]), if_neg h1, if_pos rfl, zero_add, hbit]
      rfl
    · rw [if_neg (fun h => (((set_true_eq_iff hs hyt hy).mp h.symm).elim h1 hsy)),
        if_neg h1, if_neg hsy, add_zero]

theorem map_congr_entries {R : Reg} (f g : BasisState × KC → KC)
    (h : ∀ e ∈ R, f e = g e) : R.map f = R.map g := by
  induction R with
  | nil => rfl
  | cons e rest ih =>
    simp only [List.map_cons]
    rw [h e (List.mem_cons_self _ _), ih fun u hu => h u (List.mem_cons_of_mem _ hu)]

theorem sum_contrib_false {M : Mat2} {t n : Nat} {R : Reg} (hwf : WF n R)
    (ht : t < n) {y : BasisState} (hy : y.getD t false = false)
    (hyl : y.length = n) :
    (R.map (fun e => contribAt M t e y)).sum =
      M.m00 * getAmp R y + M.m01 * getAmp R (y.set t true) := by
  have hmap : R.map (fun e => contribAt M t e y) =
      R.map (fun e => (if e.1 = y then M.m00 * e.2 else 0) +
        (if e.1 = y.set t true then M.m01 * e.2 else 0)) := by
    refine map_congr_entries _ _ fun e he => ?_
    obtain ⟨s, a⟩ := e
    have hl : s.length = n := hwf.2 (s, a) he
    exact contribAt_eval_false M t s y a (by omega) (by omega) hy
  rw [hmap, sum_map_add, list_sum_if_key hwf.1 y, list_sum_if_key hwf.1 (y.set t true)]

theorem sum_contrib_true {M : Mat2} {t n : Nat} {R : Reg} (hwf : WF n R)
    (ht : t < n) {y : BasisState} (hy : y.getD t false = false)
    (hyl : y.length = n) :
    (R.map (fun e => contribAt M t e (y.set t true))).sum =
      M.m10 * getAmp R y + M.m11 * getAmp R (y.set t true) := by
  have hmap : R.map (fun e => contribAt M t e (y.set t true)) =
      R.map (fun e => (if e.1 = y then M.m10 * e.2 else 0) +
        (if e.1 = y.set t true then M.m11 * e.2 else 0)) := by
    refine map_congr_entries _ _ fun e he => ?_
    obtain ⟨s, a⟩ := e
    have hl : s.length = n := hwf.2 (s, a) he
    exact contribAt_eval_true M t s y a (by omega) (by omega) hy
  rw [hmap, sum_map_add, list_sum_if_key hwf.1 y, list_sum_if_key hwf.1 (y.set t true)]

/-- C2 (amended): on a well-formed normalized register, a unitary gate
matrix whose contributions are never silently dropped (each is exactly
zero or of magnitude at least `1e-9`) preserves `Σ|amplitude|² = 1`
exactly — in particular within the claimed `1e-6` tolerance. -/
theorem c2_norm_preservation (M : Mat2) (t : Nat) (R : Reg) (n : Nat)
    (hwf : WF n R) (ht : t < n) (hU : IsUnitary M) (hdrop : NoDrop M t R)
    (hnorm : sumSq R = 1) : sumSq (apply_gate M t R) = 1 := by
  classical
  set Sf : Finset BasisState :=
    ((keysOf R).map (fun s => s.set t false)).toFinset with hSf
  have hSfmem : ∀ y ∈ Sf, y.getD t false = false ∧ y.length = n := by
    intro y hy
    rw [hSf, List.mem_toFinset] at hy
    rcases List.mem_map.mp hy with ⟨s, hs, rfl⟩
    have hl : s.length = n := keysOf_length hwf s hs
    exact ⟨getD_set_self s t false (by omega), by rw [List.length_set]; exact hl⟩
  set T : Finset BasisState := Sf.biUnion (fun y => {y, y.set t true}) with hT
  have hdisj : (↑Sf : Set BasisState).PairwiseDisjoint
      (fun y => ({y, y.set t true} : Finset BasisState)) := by
    intro y hy y2 hy2 hne
    obtain ⟨hyb, hyl⟩ := hSfmem y hy
    obtain ⟨hyb2, hyl2⟩ := hSfmem y2 hy2
    simp only [Function.onFun]
    rw [Finset.disjoint_left]
    intro a ha ha2
    rw [Finset.mem_insert, Finset.mem_singleton] at ha ha2
    rcases ha with rfl | rfl <;> rcases ha2 with h | h
    · exact hne h
    · rw [h] at hyb
      rw [getD_set_self y2 t true (by omega)] at hyb
      cases hyb
    · rw [← h] at hyb2
      rw [getD_set_self y t true (by omega)] at hyb2
      cases hyb2
    · have h2 := congrArg (fun l => l.set t false) h
      simp only [List.set_set] at h2
      rw [set_id_of_getD (by omega) hyb, set_id_of_getD (by omega) hyb2] at h2
      exact hne h2
  have hpairsum : ∀ (f : BasisState → Q2),
      ∑ k ∈ T, f k = ∑ y ∈ Sf, (f y + f (y.set t true)) := by
    intro f
    rw [hT, Finset.sum_biUnion hdisj]
    refine Finset.sum_congr rfl fun y hy => ?_
    obtain ⟨hyb, hyl⟩ := hSfmem y hy
    exact Finset.sum_pair (ne_set_true (by omega) hyb)
  have hcov_out : ∀ k ∈ keysOf (apply_gate M t R), k ∈ T := by
    intro k hk
    rcases mem_keysOf_gate_aux R [] k hk with h | ⟨e, he, r, hr, _⟩
    · simp [keysOf] at h
    · have hyin : e.1.set t false ∈ Sf := by
        rw [hSf, List.mem_toFinset]
        exact List.mem_map_of_mem _ (List.mem_map_of_mem Prod.fst he)
      rw [hT, Finset.mem_biUnion]
      refine ⟨e.1.set t false, hyin, ?_⟩
      rw [Finset.mem_insert, Finset.mem_singleton]
      cases r
      · exact Or.inl hr
      · exact Or.inr (by rw [hr, List.set_set])
  have hcov_R : ∀ k ∈ keysOf R, k ∈ T := by
    intro k hk
    have hl : k.length = n := keysOf_length hwf k hk
    have hyin : k.set t false ∈ Sf := by
      rw [hSf, List.mem_toFinset]
      exact List.mem_map_of_mem _ hk
    rw [hT, Finset.mem_biUnion]
    refine ⟨k.set t false, hyin, ?_⟩
    rw [Finset.mem_insert, Finset.mem_singleton]
    cases hb : k.getD t false
    · exact Or.inl (set_id_of_getD (by omega) hb).symm
    · refine Or.inr ?_
      rw [List.set_set]
      exact (set_id_of_getD_true (by omega) hb).symm
  have houtAmp := getAmp_apply_gate hdrop
  calc sumSq (apply_gate M t R)
      = ∑ k ∈ T, KC.absSq (getAmp (apply_gate M t R) k) :=
        (sum_getAmp_superset (nodup_keys_apply_gate M t R) T hcov_out).symm
    _ = ∑ y ∈ Sf, (KC.absSq (getAmp (apply_gate M t R) y) +
          KC.absSq (getAmp (apply_gate M t R) (y.set t true))) :=
        hpairsum _
    _ = ∑ y ∈ Sf, (KC.absSq (getAmp R y) + KC.absSq (getAmp R (y.set t true))) := by
        refine Finset.sum_congr rfl fun y hy => ?_
        obtain ⟨hyb, hyl⟩ := hSfmem y hy
        rw [houtAmp y, houtAmp (y.set t true), sum_contrib_false hwf ht hyb hyl,
          sum_contrib_true hwf ht hyb hyl,
          unitary_norm_pair M hU (getAmp R y) (getAmp R (y.set t true))]
    _ = ∑ k ∈ T, KC.absSq (getAmp R k) := (hpairsum _).symm
    _ = sumSq R := sum_getAmp_superset hwf.1 T hcov_R
    _ = 1 := hnorm

/-- Witness for C2: the Hadamard gate (unitary, and with both of its
contributions of magnitude `1/√2` on the one-entry register) preserves
the norm of `{"0": 1+0i}`. -/
theorem c2_norm_preservation_witness :
    sumSq (apply_gate Hadamard 0 [([false], (1 : KC))]) = 1 := by
  refine c2_norm_preservation Hadamard 0 [([false], 1)] 1 ⟨?_, ?_⟩ ?_ ⟨?_, ?_, ?_⟩ ?_ ?_
  · simp [keysOf]
  · intro e he
    rw [List.mem_singleton] at he
    subst he
    rfl
  · omega
  · apply KC.ext <;> apply Q2.ext <;>
      norm_num [Hadamard, invSqrt2, KC.conj]
  · apply KC.ext <;> apply Q2.ext <;>
      norm_num [Hadamard, invSqrt2, KC.conj]
  · apply KC.ext <;> apply Q2.ext <;>
      norm_num [Hadamard, invSqrt2, KC.conj]
  · intro e he r
    rw [List.mem_singleton] at he
    subst he
    right
    cases r <;>
      norm_num [Hadamard, invSqrt2, Mat2.entry, dropSmall, KC.absSq, Q2.ltB,
        Q2.posB, threshSq]
  · norm_num [sumSq, KC.absSq]

/-!
## Block decomposition of `apply_gate`

When a register is a concatenation of blocks whose gate outputs live on
disjoint key sets, `apply_gate` factors through the blocks.  This is used
to evaluate the gate on a structured register of ~2·2²⁰ entries.
-/

/-- The keys that processing `L` can ever write to. -/
def POutP (t : Nat) (L : Reg) (x : BasisState) : Prop :=
  ∃ e ∈ L, ∃ r : Bool, x = e.1.set t r

theorem setK_append {A : Reg} {k : BasisState} (C : Reg) (v : KC)
    (h : k ∉ keysOf A) : setK (A ++ C) k v = A ++ setK C k v := by
  induction A with
  | nil => rfl
  | cons e rest ih =>
    obtain ⟨k0, v0⟩ := e
    simp only [keysOf, List.map_cons, List.mem_cons, not_or] at h
    simp only [List.cons_append, setK, if_neg (fun hh : k0 = k => h.1 hh.symm)]
    exact congrArg (fun l => (k0, v0) :: l) (ih (by simpa [keysOf] using h.2))

theorem getAmp_append {A : Reg} {k : BasisState} (C : Reg)
    (h : k ∉ keysOf A) : getAmp (A ++ C) k = getAmp C k := by
  induction A with
  | nil => rfl
  | cons e rest ih =>
    obtain ⟨k0, v0⟩ := e
    simp only [keysOf, List.map_cons, List.mem_cons, not_or] at h
    simp only [List.cons_append, getAmp, if_neg (fun hh : k0 = k => h.1 hh.symm)]
    exact ih (by simpa [keysOf] using h.2)

theorem gateInsert_append {M : Mat2} {t : Nat} {s : BasisState} {amp : KC}
    {r : Bool} {A : Reg} (C : Reg) (h : s.set t r ∉ keysOf A) :
    gateInsert M t s amp r (A ++ C) = A ++ gateInsert M t s amp r C := by
  rw [gateInsert, gateInsert]
  split_ifs with hd
  · rfl
  · rw [setK_append _ _ h, getAmp_append _ h]

theorem gateStep_append {M : Mat2} {t : Nat} {A : Reg} (C : Reg)
    (e : BasisState × KC) (h0 : e.1.set t false ∉ keysOf A)
    (h1 : e.1.set t true ∉ keysOf A) :
    gateStep M t (A ++ C) e = A ++ gateStep M t C e := by
  rw [gateStep, gateInsert_append _ h0, gateInsert_append _ h1, gateStep]

theorem foldl_gateStep_append {M : Mat2} {t : Nat} :
    ∀ (B : List (BasisState × KC)) (A C : Reg),
      (∀ x, POutP t B x → x ∉ keysOf A) →
      B.foldl (gateStep M t) (A ++ C) = A ++ B.foldl (gateStep M t) C
  | [], _, _, _ => rfl
  | e :: rest, A, C, h => by
    simp only [List.foldl_cons]
    rw [gateStep_append C e
      (h _ ⟨e, List.mem_cons_self _ _, false, rfl⟩)
      (h _ ⟨e, List.mem_cons_self _ _, true, rfl⟩)]
    exact foldl_gateStep_append rest A _ fun x ⟨u, hu, r, hr⟩ =>
      h x ⟨u, List.mem_cons_of_mem _ hu, r, hr⟩

theorem apply_gate_append (M : Mat2) (t : Nat) (A B : Reg)
    (h : ∀ x, POutP t B x → ¬ POutP t A x) :
    apply_gate M t (A ++ B) = apply_gate M t A ++ apply_gate M t B := by
  rw [apply_gate, List.foldl_append]
  have h2 : ∀ x, POutP t B x → x ∉ keysOf (apply_gate M t A) := by
    intro x hx hk
    rcases mem_keysOf_gate_aux A [] x hk with hh | ⟨e, he, r, hr, _⟩
    · simp [keysOf] at hh
    · exact h x hx ⟨e, he, r, hr⟩
  have h3 : B.foldl (gateStep M t) (apply_gate M t A ++ []) =
      apply_gate M t A ++ B.foldl (gateStep M t) [] :=
    foldl_gateStep_append B (apply_gate M t A) [] h2
  rw [List.append_nil] at h3
  exact h3

theorem POutP_append {t : Nat} {A B : Reg} {x : BasisState} :
    POutP t (A ++ B) x ↔ POutP t A x ∨ POutP t B x := by
  constructor
  · rintro ⟨e, he, r, hr⟩
    rcases List.mem_append.mp he with h | h
    · exact Or.inl ⟨e, h, r, hr⟩
    · exact Or.inr ⟨e, h, r, hr⟩
  · rintro (⟨e, he, r, hr⟩ | ⟨e, he, r, hr⟩)
    · exact ⟨e, List.mem_append_left _ he, r, hr⟩
    · exact ⟨e, List.mem_append_right _ he, r, hr⟩

theorem POutP_concat {t : Nat} : ∀ {Bs : List Reg} {x : BasisState},
    POutP t (Bs.foldr (· ++ ·) []) x → ∃ B ∈ Bs, POutP t B x := by
  intro Bs
  induction Bs with
  | nil => rintro x ⟨e, he, _, _⟩; cases he
  | cons B rest ih =>
    intro x hx
    rcases POutP_append.mp hx with h | h
    · exact ⟨B, List.mem_cons_self _ _, h⟩
    · obtain ⟨B2, hB2, h2⟩ := ih h
      exact ⟨B2, List.mem_cons_of_mem _ hB2, h2⟩

theorem apply_gate_blocks (M : Mat2) (t : Nat) :
    ∀ (Bs : List Reg),
      Bs.Pairwise (fun B1 B2 => ∀ x, POutP t B2 x → ¬ POutP t B1 x) →
      apply_gate M t (Bs.foldr (· ++ ·) []) =
        Bs.foldr (fun B acc => apply_gate M t B ++ acc) []
  | [], _ => rfl
  | B :: rest, hp => by
    rw [List.pairwise_cons] at hp
    simp only [List.foldr_cons]
    rw [apply_gate_append M t B _ ?_]
    · rw [apply_gate_blocks M t rest hp.2]
    · intro x hx
      obtain ⟨B2, hB2, h2⟩ := POutP_concat hx
      exact hp.1 B2 hB2 x h2

theorem sumSq_append (A B : Reg) : sumSq (A ++ B) = sumSq A + sumSq B := by
  rw [sumSq, sumSq, sumSq, List.map_append, List.sum_append]

theorem sumSq_foldr_append : ∀ (Bs : List Reg),
    sumSq (Bs.foldr (fun B acc => B ++ acc) []) = (Bs.map sumSq).sum
  | [] => rfl
  | B :: rest => by
    simp only [List.foldr_cons, List.map_cons, List.sum_cons]
    rw [sumSq_append, sumSq_foldr_append rest]

/-!
## A concrete register on which thresholding breaks `Σ = 1 ± 1e-6`

2²⁰ amplitude pairs `(α, β)` are placed on the target-bit pairs
`0w / 1w` of 21-bit suffixes `w`, with `α = 1.6e-9` chosen so that the
contribution `(3/5)·α = 9.6e-10` falls below the `1e-9` threshold while
`(4/5)·α = 1.28e-9` survives; four junk amplitudes top the total up to
exactly 1.  Each dropped contribution interferes with a kept one, and the
2²⁰ losses add up to ≈ 1.53e-6.
-/

/-- A real rational as an amplitude. -/
def ratK (q : ℚ) : KC := ⟨⟨q, 0⟩, 0⟩

/-- Little-endian `len`-bit representation of `k`. -/
def natToBits : Nat → Nat → List Bool
  | 0, _ => []
  | len + 1, k => decide (k % 2 = 1) :: natToBits len (k / 2)

theorem natToBits_length : ∀ (len k : Nat), (natToBits len k).length = len
  | 0, _ => rfl
  | len + 1, k => by simp [natToBits, natToBits_length len]

theorem natToBits_inj : ∀ (len k1 k2 : Nat), k1 < 2 ^ len → k2 < 2 ^ len →
    natToBits len k1 = natToBits len k2 → k1 = k2
  | 0, k1, k2, h1, h2, _ => by
    simp only [pow_zero] at h1 h2
    omega
  | len + 1, k1, k2, h1, h2, h => by
    simp only [natToBits, List.cons.injEq] at h
    have hpow : 2 ^ (len + 1) = 2 * 2 ^ len := by ring
    have hh : k1 / 2 = k2 / 2 :=
      natToBits_inj len _ _ (by omega) (by omega) h.2
    have hp : (decide (k1 % 2 = 1) : Bool) = decide (k2 % 2 = 1) := h.1
    have hm : k1 % 2 = k2 % 2 := by
      rcases Nat.mod_two_eq_zero_or_one k1 with ha | ha <;>
        rcases Nat.mod_two_eq_zero_or_one k2 with hb | hb <;>
          rw [ha, hb] at hp ⊢ <;> simp_all
    omega

/-- The 2×2 rational rotation `[[4/5, -3/5], [3/5, 4/5]]` (unitary). -/
def cexM : Mat2 := ⟨ratK (4/5), ratK (-(3/5)), ratK (3/5), ratK (4/5)⟩

def cexN : Nat := 2 ^ 20

def cexAlpha : ℚ := 1 / 625000000

def cexBeta : ℚ := 39 / 40960

def cexJunk : List ℚ :=
  [17359754 / 78125000, 5001 / 78125000, 125 / 78125000, 43 / 78125000]

def cexSuffix (k : Nat) : BasisState := natToBits 21 k

/-- Block `k` of the register: an `(α, β)` pair on suffix `k` for
`k < 2²⁰`, one junk amplitude for `k ∈ [2²⁰, 2²⁰+4)`. -/
def cexBlock (k : Nat) : Reg :=
  if k < cexN then
    [(false :: cexSuffix k, ratK cexAlpha), (true :: cexSuffix k, ratK cexBeta)]
  else
    [(false :: cexSuffix k, ratK (cexJunk.getD (k - cexN) 0))]

/-- The counterexample register: 2²⁰ pair blocks and 4 junk entries. -/
def cexReg : Reg := ((List.range (cexN + 4)).map cexBlock).foldr (· ++ ·) []

theorem cex_pair_out (w : BasisState) :
    apply_gate cexM 0 [(false :: w, ratK cexAlpha), (true :: w, ratK cexBeta)] =
      [(false :: w, ratK (4/5 * cexAlpha + -(3/5) * cexBeta)),
        (true :: w, ratK (4/5 * cexBeta))] := by
  norm_num [apply_gate, gateStep, gateInsert, setK, getAmp, dropSmall, Q2.ltB,
    Q2.posB, threshSq, Mat2.entry, cexM, ratK, cexAlpha, cexBeta, KC.absSq,
    List.set_cons_zero, List.getD_cons_zero]
  constructor <;> (apply KC.ext <;> apply Q2.ext <;> norm_num)

theorem cex_junk_out (w : BasisState) (g : ℚ) (hg : g ∈ cexJunk) :
    apply_gate cexM 0 [(false :: w, ratK g)] =
      [(false :: w, ratK (4/5 * g)), (true :: w, ratK (3/5 * g))] := by
  simp only [cexJunk, List.mem_cons, List.not_mem_nil, or_false] at hg
  rcases hg with rfl | rfl | rfl | rfl
  all_goals
    norm_num [apply_gate, gateStep, gateInsert, setK, getAmp, dropSmall, Q2.ltB,
      Q2.posB, threshSq, Mat2.entry, cexM, ratK, KC.absSq,
      List.set_cons_zero, List.getD_cons_zero]
  all_goals constructor <;> (apply KC.ext <;> apply Q2.ext <;> norm_num)

def cexQin : ℚ := 5802154541032009 / 6400000000000000000000

def cexQpair : ℚ := 145053629525652769 / 160000000000000000000000

def cexOut : ℚ := 2384182134763321 / 2384185791015625

theorem ofRat_add (a b : ℚ) : Q2.ofRat a + Q2.ofRat b = Q2.ofRat (a + b) := by
  apply Q2.ext <;> simp [Q2.ofRat]

theorem cex_pair_in_sumSq (w : BasisState) :
    sumSq [(false :: w, ratK cexAlpha), (true :: w, ratK cexBeta)] =
      Q2.ofRat cexQin := by
  apply Q2.ext <;>
    norm_num [sumSq, KC.absSq, ratK, cexAlpha, cexBeta, cexQin, Q2.ofRat]

theorem cex_pair_out_sumSq (w : BasisState) :
    sumSq (apply_gate cexM 0
      [(false :: w, ratK cexAlpha), (true :: w, ratK cexBeta)]) =
      Q2.ofRat cexQpair := by
  rw [cex_pair_out]
  apply Q2.ext <;>
    norm_num [sumSq, KC.absSq, ratK, cexAlpha, cexBeta, cexQpair, Q2.ofRat]

theorem cex_junk_in_sumSq (w : BasisState) (g : ℚ) :
    sumSq [(false :: w, ratK g)] = Q2.ofRat (g ^ 2) := by
  apply Q2.ext <;> norm_num [sumSq, KC.absSq, ratK, Q2.ofRat] <;> ring

theorem cex_junk_out_sumSq (w : BasisState) (g : ℚ) (hg : g ∈ cexJunk) :
    sumSq (apply_gate cexM 0 [(false :: w, ratK g)]) = Q2.ofRat (g ^ 2) := by
  rw [cex_junk_out w g hg]
  apply Q2.ext <;> norm_num [sumSq, KC.absSq, ratK, Q2.ofRat] <;> ring

theorem sum_map_range_const (m : Nat) (f : Nat → Q2) (q : ℚ)
    (h : ∀ k < m, f k = Q2.ofRat q) :
    ((List.range m).map f).sum = Q2.ofRat (m * q) := by
  induction m with
  | zero =>
    apply Q2.ext <;> simp [Q2.ofRat]
  | succ m ih =>
    rw [List.range_succ, List.map_append, List.sum_append,
      ih fun k hk => h k (by omega)]
    simp only [List.map_cons, List.map_nil, List.sum_cons, List.sum_nil,
      h m (by omega)]
    apply Q2.ext <;> simp [Q2.ofRat] <;> push_cast <;> ring

theorem cexBlock_pout {k : Nat} {x : BasisState} (h : POutP 0 (cexBlock k) x) :
    ∃ b : Bool, x = b :: cexSuffix k := by
  obtain ⟨e, he, r, hr⟩ := h
  rw [cexBlock] at he
  split_ifs at he with hk
  · rcases List.mem_cons.mp he with rfl | he2
    · exact ⟨r, by rw [hr, List.set_cons_zero]⟩
    · rcases List.mem_cons.mp he2 with rfl | h3
      · exact ⟨r, by rw [hr, List.set_cons_zero]⟩
      · cases h3
  · rcases List.mem_cons.mp he with rfl | h3
    · exact ⟨r, by rw [hr, List.set_cons_zero]⟩
    · cases h3

theorem cexSuffix_inj {k1 k2 : Nat} (h1 : k1 < 2 ^ 21) (h2 : k2 < 2 ^ 21)
    (h : cexSuffix k1 = cexSuffix k2) : k1 = k2 :=
  natToBits_inj 21 k1 k2 h1 h2 h

theorem cexBlocks_pairwise :
    ((List.range (cexN + 4)).map cexBlock).Pairwise
      (fun B1 B2 => ∀ x, POutP 0 B2 x → ¬ POutP 0 B1 x) := by
  rw [List.pairwise_map]
  have hlt : (List.range (cexN + 4)).Pairwise (· < ·) := List.pairwise_lt_range _
  refine hlt.imp_of_mem ?_
  intro k1 k2 hk1 hk2 hne x h2 h1
  rw [List.mem_range] at hk1 hk2
  obtain ⟨b2, rfl⟩ := cexBlock_pout h2
  obtain ⟨b1, hb1⟩ := cexBlock_pout h1
  rw [List.cons.injEq] at hb1
  have hk : k2 = k1 := by
    refine cexSuffix_inj ?_ ?_ hb1.2
    · have : cexN + 4 ≤ 2 ^ 21 := by norm_num [cexN]
      omega
    · have : cexN + 4 ≤ 2 ^ 21 := by norm_num [cexN]
      omega
  omega

theorem mem_cexBlock_keys {k : Nat} {x : BasisState}
    (h : x ∈ keysOf (cexBlock k)) : ∃ b : Bool, x = b :: cexSuffix k := by
  rw [cexBlock] at h
  split_ifs at h with hk <;> simp only [keysOf, List.map_cons, List.map_nil,
    List.mem_cons, List.mem_singleton, List.not_mem_nil, or_false] at h
  · rcases h with rfl | rfl
    · exact ⟨false, rfl⟩
    · exact ⟨true, rfl⟩
  · exact ⟨false, h ▸ rfl⟩

theorem keysOf_append_reg (A B : Reg) : keysOf (A ++ B) = keysOf A ++ keysOf B :=
  List.map_append _ _ _

theorem mem_concat_block_keys : ∀ (ks : List Nat) {x : BasisState},
    x ∈ keysOf ((ks.map cexBlock).foldr (· ++ ·) []) →
    ∃ k ∈ ks, ∃ b : Bool, x = b :: cexSuffix k
  | [], x, h => by cases h
  | k :: rest, x, h => by
    simp only [List.map_cons, List.foldr_cons, keysOf_append_reg,
      List.mem_append] at h
    rcases h with h | h
    · obtain ⟨b, rfl⟩ := mem_cexBlock_keys h
      exact ⟨k, List.mem_cons_self _ _, b, rfl⟩
    · obtain ⟨k2, hk2, b, rfl⟩ := mem_concat_block_keys rest h
      exact ⟨k2, List.mem_cons_of_mem _ hk2, b, rfl⟩

theorem nodup_cexBlock_keys (k : Nat) : (keysOf (cexBlock k)).Nodup := by
  rw [cexBlock]
  split_ifs <;> simp [keysOf]

theorem nodup_concat_block_keys : ∀ (ks : List Nat), ks.Nodup →
    (∀ k ∈ ks, k < 2 ^ 21) →
    (keysOf ((ks.map cexBlock).foldr (· ++ ·) [])).Nodup
  | [], _, _ => List.nodup_nil
  | k :: rest, hnd, hb => by
    simp only [List.map_cons, List.foldr_cons, keysOf_append_reg]
    rw [List.nodup_append]
    rw [List.nodup_cons] at hnd
    refine ⟨nodup_cexBlock_keys k, nodup_concat_block_keys rest hnd.2
      (fun u hu => hb u (List.mem_cons_of_mem _ hu)), ?_⟩
    intro x hx hx2
    obtain ⟨b, rfl⟩ := mem_cexBlock_keys hx
    obtain ⟨k2, hk2, b2, heq⟩ := mem_concat_block_keys rest hx2
    rw [List.cons.injEq] at heq
    have : k = k2 := cexSuffix_inj (hb k (List.mem_cons_self _ _))
      (hb k2 (List.mem_cons_of_mem _ hk2)) heq.2
    exact hnd.1 (this ▸ hk2)

theorem mem_concat_block_entries : ∀ (ks : List Nat) {e : BasisState × KC},
    e ∈ (ks.map cexBlock).foldr (· ++ ·) [] → ∃ k ∈ ks, e ∈ cexBlock k
  | [], e, h => by cases h
  | k :: rest, e, h => by
    simp only [List.map_cons, List.foldr_cons, List.mem_append] at h
    rcases h with h | h
    · exact ⟨k, List.mem_cons_self _ _, h⟩
    · obtain ⟨k2, hk2, h2⟩ := mem_concat_block_entries rest h
      exact ⟨k2, List.mem_cons_of_mem _ hk2, h2⟩

theorem WF_cexReg : WF 22 cexReg := by
  constructor
  · refine nodup_concat_block_keys _ (List.nodup_range _) ?_
    intro k hk
    rw [List.mem_range] at hk
    have : cexN + 4 ≤ 2 ^ 21 := by norm_num [cexN]
    omega
  · intro e he
    obtain ⟨k, _, hin⟩ := mem_concat_block_entries _ he
    rw [cexBlock] at hin
    have hs : (cexSuffix k).length = 21 := natToBits_length 21 k
    split_ifs at hin
    · rcases List.mem_cons.mp hin with rfl | hin2
      · simp [hs]
      · rcases List.mem_cons.mp hin2 with rfl | h3
        · simp [hs]
        · cases h3
    · rcases List.mem_cons.mp hin with rfl | h3
      · simp [hs]
      · cases h3

theorem sumSq_foldr_append_f {α : Type} (f : α → Reg) : ∀ (l : List α),
    sumSq (l.foldr (fun a acc => f a ++ acc) []) =
      (l.map (fun a => sumSq (f a))).sum
  | [] => rfl
  | a :: rest => by
    simp only [List.foldr_cons, List.map_cons, List.sum_cons]
    rw [sumSq_append, sumSq_foldr_append_f f rest]

theorem cexM_unitary : IsUnitary cexM := by
  refine ⟨?_, ?_, ?_⟩ <;> (apply KC.ext <;> apply Q2.ext <;>
    norm_num [cexM, ratK, KC.conj])

theorem range_four : List.range 4 = [0, 1, 2, 3] := rfl

theorem cex_junk_sum_in :
    (((List.range 4).map (fun j => cexN + j)).map
      (fun k => sumSq (cexBlock k))).sum =
      Q2.ofRat (301361083967991 / 6103515625000000) := by
  rw [range_four]
  simp only [List.map_cons, List.map_nil, List.sum_cons, List.sum_nil]
  have hb : ∀ j : Nat, j < 4 → cexBlock (cexN + j) =
      [(false :: cexSuffix (cexN + j), ratK (cexJunk.getD j 0))] := by
    intro j hj
    have harg : cexN + j - cexN = j := by omega
    rw [cexBlock, if_neg (by omega), harg]
  rw [hb 0 (by omega), hb 1 (by omega), hb 2 (by omega), hb 3 (by omega)]
  rw [cex_junk_in_sumSq, cex_junk_in_sumSq, cex_junk_in_sumSq, cex_junk_in_sumSq]
  simp only [cexJunk, List.getD, List.getElem?_cons_zero, List.getElem?_cons_succ,
    Option.getD_some]
  rw [add_zero, ofRat_add, ofRat_add, ofRat_add]
  apply Q2.ext <;> norm_num [Q2.ofRat]

theorem cex_junk_sum_out :
    (((List.range 4).map (fun j => cexN + j)).map
      (fun k => sumSq (apply_gate cexM 0 (cexBlock k)))).sum =
      Q2.ofRat (301361083967991 / 6103515625000000) := by
  rw [range_four]
  simp only [List.map_cons, List.map_nil, List.sum_cons, List.sum_nil]
  have hb : ∀ j : Nat, j < 4 → cexBlock (cexN + j) =
      [(false :: cexSuffix (cexN + j), ratK (cexJunk.getD j 0))] := by
    intro j hj
    have harg : cexN + j - cexN = j := by omega
    rw [cexBlock, if_neg (by omega), harg]
  rw [hb 0 (by omega), hb 1 (by omega), hb 2 (by omega), hb 3 (by omega)]
  rw [cex_junk_out_sumSq _ _ (by simp [cexJunk]),
    cex_junk_out_sumSq _ _ (by simp [cexJunk]),
    cex_junk_out_sumSq _ _ (by simp [cexJunk]),
    cex_junk_out_sumSq _ _ (by simp [cexJunk])]
  simp only [cexJunk, List.getD, List.getElem?_cons_zero, List.getElem?_cons_succ,
    Option.getD_some]
  rw [add_zero, ofRat_add, ofRat_add, ofRat_add]
  apply Q2.ext <;> norm_num [Q2.ofRat]

theorem sumSq_cexReg : sumSq cexReg = 1 := by
  rw [cexReg, sumSq_foldr_append, List.map_map]
  rw [List.range_add, List.map_append, List.sum_append]
  have h1 : ((List.range cexN).map (sumSq ∘ cexBlock)).sum =
      Q2.ofRat (cexN * cexQin) := by
    apply sum_map_range_const
    intro k hk
    show sumSq (cexBlock k) = _
    rw [cexBlock, if_pos hk]
    exact cex_pair_in_sumSq _
  have h2 : (((List.range 4).map (fun j => cexN + j)).map
      (sumSq ∘ cexBlock)).sum =
      Q2.ofRat (301361083967991 / 6103515625000000) := cex_junk_sum_in
  rw [h1, h2, ofRat_add]
  apply Q2.ext <;> norm_num [Q2.ofRat, cexQin, cexN]

theorem sumSq_apply_cexReg :
    sumSq (apply_gate cexM 0 cexReg) = Q2.ofRat cexOut := by
  rw [cexReg, apply_gate_blocks cexM 0 _ cexBlocks_pairwise]
  rw [sumSq_foldr_append_f (apply_gate cexM 0), List.map_map]
  rw [List.range_add, List.map_append, List.sum_append]
  have h1 : ((List.range cexN).map
      ((fun B => sumSq (apply_gate cexM 0 B)) ∘ cexBlock)).sum =
      Q2.ofRat (cexN * cexQpair) := by
    apply sum_map_range_const
    intro k hk
    show sumSq (apply_gate cexM 0 (cexBlock k)) = _
    rw [cexBlock, if_pos hk]
    exact cex_pair_out_sumSq _
  have h2 : (((List.range 4).map (fun j => cexN + j)).map
      ((fun B => sumSq (apply_gate cexM 0 B)) ∘ cexBlock)).sum =
      Q2.ofRat (301361083967991 / 6103515625000000) := cex_junk_sum_out
  rw [h1, h2, ofRat_add]
  apply Q2.ext <;> norm_num [Q2.ofRat, cexQpair, cexOut, cexN]

/-- C2 (counterexample): a well-formed register with `Σ|amplitude|² = 1`
exactly, a unitary matrix, and the in-range target qubit `0` of its
22-qubit keys, for which the Gate Applicator returns a register whose
squared-magnitude total falls short of `1` by ≈ 1.53e-6 — more than the
claimed `1e-6` tolerance.  The register holds 2²⁰ amplitude pairs
`(1.6e-9, ≈9.5e-4)`; on each, the contribution `(3/5)·1.6e-9 = 9.6e-10`
is silently dropped by the `1e-9` threshold while the interfering partner
is kept, and the 2²⁰ small losses accumulate. -/
theorem c2_counterexample :
    WF 22 cexReg ∧ 0 < 22 ∧ IsUnitary cexM ∧ sumSq cexReg = 1 ∧
      sumSq (apply_gate cexM 0 cexReg) = Q2.ofRat cexOut ∧
      1 / 1000000 < 1 - cexOut :=
  ⟨WF_cexReg, by omega, cexM_unitary, sumSq_cexReg, sumSq_apply_cexReg,
    by norm_num [cexOut]⟩
